import Mathlib

/-!
# Verification of the `conquest/regioner.py` segmentation and mask-bookkeeping engine

Shallow embedding of the map-segmentation engine in `src/conquest/regioner.py`:
flood fill (`floodfill`), full-image segmentation (`Regioner.execute`), and the
region-registry mutations of `MapMaker` (`combine_masks`, `delete_masks`,
`prune_masks`, `sort_regions`, `generate_masks`, `save_data`/`load_data`).

Modelling conventions:
* Pixel grids (PIL mode "L" images) are `Grid`: a width, a height, and a total
  function from integer coordinates to `Nat` intensities; only in-bounds
  coordinates are ever read by the embedded code.  Coordinates are `Int × Int`
  because the Python code works with signed ints and explicitly checks `s < 0`.
* Mode-"1" mask images are `MaskImg`: a `Bool`-valued grid, `true` for the
  1/255 pixel value ("unfilled") and `false` for 0 ("filled" = membership),
  exactly the convention of `MASK_MODE = "1"` in the source.
* Python exceptions that can escape an operation are modelled with
  `Except PyErr`; a falsy sentinel return (`False`, `None`, empty dict) is a
  distinguished `.ok` value, never an `.error`.
* Python floats are modelled with `ℚ` (exact arithmetic standing in for IEEE
  doubles; all the properties below are about the exact arithmetic the code
  performs, not rounding).
* The masks directory on disk is an association list from file names to mask
  images; `pathlib.Path.rename` (POSIX overwrite semantics) is
  `eraseEntry`/`writeEntry`; `json` persistence keeps numeric keys as `Nat`
  (Python round-trips them through decimal strings `str`/`int`).
* The PIL flood-fill `while` loop is given explicit fuel; every theorem about
  it is proved for all fuel values.  A fuel of `width * height + 1` suffices to
  reach the empty-edge fixpoint, because each loop iteration's `new_edge`
  contains only pixels freshly overwritten with `value`, and such pixels are
  never filled again.
-/

namespace Conquest

/-- Python exceptions that the embedded code can raise. -/
inductive PyErr where
  | valueError
  | keyError
  | fileNotFound
  | indexError
  | notImplemented
  deriving DecidableEq, Repr

/-- A pixel coordinate `(x, y)`, signed as in the Python source. -/
abbrev Coord := Int × Int

/-- A single-channel ("L"-mode) image: dimensions plus an intensity function. -/
structure Grid where
  width : Nat
  height : Nat
  pix : Coord → Nat

/-- In-bounds predicate: PIL pixel access `pixel[x, y]` succeeds exactly here
(the Python code treats both the explicit `s < 0` test and the caught
`IndexError` as "skip this coordinate"). -/
def Grid.inB (g : Grid) (c : Coord) : Prop :=
  0 ≤ c.1 ∧ c.1 < (g.width : Int) ∧ 0 ≤ c.2 ∧ c.2 < (g.height : Int)

instance (g : Grid) (c : Coord) : Decidable (g.inB c) := by
  unfold Grid.inB; infer_instance

/-- Model of `pixel[x, y] = value`: in-place single-pixel write. -/
def Grid.setPix (g : Grid) (c : Coord) (v : Nat) : Grid :=
  { g with pix := fun d => if d = c then v else g.pix d }

/-- Model of `PIL.ImageDraw._color_diff` for scalar ("L"-mode) pixels: `abs(a - b)`. -/
def color_diff (a b : Nat) : Nat := max a b - min a b

/-- The 4-adjacent neighbours, in the order the Python source lists them:
`(x+1, y), (x-1, y), (x, y+1), (x, y-1)`. -/
def floodNeighbors (c : Coord) : List Coord :=
  [(c.1 + 1, c.2), (c.1 - 1, c.2), (c.1, c.2 + 1), (c.1, c.2 - 1)]

/-- State threaded through one iteration of the flood-fill `while` loop:
the mutated grid, the `new_edge` accumulator and the `full_edge` set. -/
structure FState where
  grid : Grid
  newEdge : List Coord
  fullEdge : List Coord

/-- The `fill` condition of `floodfill`: without a border, a colour-difference
threshold test against the seed's original background; with a border value,
`p not in [value, border]`. -/
def fillTest (value : Nat) (border : Option Nat) (thresh background p : Nat) : Bool :=
  match border with
  | none => color_diff p background ≤ thresh
  | some b => ¬(p = value ∨ p = b)

/-- Processing of one neighbour `(s, t)` inside the flood-fill loop: skip if
already in `full_edge` or out of bounds (negative test / `IndexError`),
otherwise record it in `full_edge`, test `fill`, and on success write `value`
and append to `new_edge`. -/
def processNeighbor (value : Nat) (border : Option Nat) (thresh background : Nat)
    (st : FState) (c : Coord) : FState :=
  if c ∈ st.fullEdge ∨ ¬st.grid.inB c then st
  else if fillTest value border thresh background (st.grid.pix c) then
    { grid := st.grid.setPix c value, newEdge := st.newEdge ++ [c],
      fullEdge := c :: st.fullEdge }
  else { st with fullEdge := c :: st.fullEdge }

/-- The body of `for (x, y) in edge`: examine the four neighbours. -/
def processPixel (value : Nat) (border : Option Nat) (thresh background : Nat)
    (st : FState) (c : Coord) : FState :=
  (floodNeighbors c).foldl (processNeighbor value border thresh background) st

/-- The `while edge:` loop of `floodfill`.  Arguments after the fuel:
current grid, `edge`, the previous edge (the value `full_edge` is reset to at
the end of each iteration), and `filled_pixels`. -/
def floodLoop (value : Nat) (border : Option Nat) (thresh background : Nat) :
    Nat → Grid → List Coord → List Coord → List Coord → Grid × List Coord
  | 0, g, _, _, filled => (g, filled)
  | fuel + 1, g, edge, prevEdge, filled =>
    if edge.isEmpty then (g, filled)
    else
      let st := edge.foldl (processPixel value border thresh background)
        { grid := g, newEdge := [], fullEdge := prevEdge }
      floodLoop value border thresh background fuel st.grid st.newEdge edge (filled ++ edge)

/-- Model of `floodfill(image, xy, value, border, thresh)`, returning the mutated image
and the set of filled pixels (modelled as a duplicate-free list).  An
out-of-bounds seed raises inside the `try`, giving `(image, ∅)`; a seed whose
colour already matches `value` within `thresh` returns `∅` before writing. -/
def floodfill (fuel : Nat) (g : Grid) (xy : Coord) (value : Nat)
    (border : Option Nat) (thresh : Nat) : Grid × List Coord :=
  if g.inB xy then
    if color_diff value (g.pix xy) ≤ thresh then (g, [])
    else floodLoop value border thresh (g.pix xy) fuel (g.setPix xy value) [xy] [] []
  else (g, [])

/-- A mode-"1" (1-bit) mask image, the `MASK_MODE` of the source: `true` is
the saturated pixel value 1/255 ("unfilled"), `false` is 0 ("filled", i.e.
the pixel belongs to the region). -/
structure MaskImg where
  width : Nat
  height : Nat
  pix : Coord → Bool

/-- Model of `ImageChops.logical_and` on mode-"1" images: pixel-wise boolean AND of the
two 1-bit values (PIL takes the first operand's size). -/
def logical_and (a b : MaskImg) : MaskImg :=
  { width := a.width, height := a.height, pix := fun c => a.pix c && b.pix c }

/-- First-match association-list lookup (Python `dict` access). -/
def lookupKey {α β : Type} [DecidableEq α] (k : α) : List (α × β) → Option β
  | [] => none
  | (a, b) :: t => if a = k then some b else lookupKey k t

/-- File names in the masks directory: `"{n}.png"` is `num n`, the temporary
`"{n}_old.png"` names used by `sort_regions` are `old n`. -/
inductive MaskName where
  | num (n : Nat)
  | old (n : Nat)
  deriving DecidableEq, Repr

/-- The masks directory on disk, in directory-listing order. -/
abbrev Disk := List (MaskName × MaskImg)

/-- Remove the entry with the given key (`dict.pop` / file `unlink`). -/
def eraseKey {α β : Type} [DecidableEq α] (l : List (α × β)) (k : α) : List (α × β) :=
  l.filter fun p => decide (p.1 ≠ k)

/-- Write the entry for a key, replacing any existing one (file write with
overwrite, or `dict` insertion of a fresh key). -/
def writeEntry {α β : Type} [DecidableEq α] (l : List (α × β)) (k : α) (v : β) :
    List (α × β) :=
  eraseKey l k ++ [(k, v)]

/-- One step of the running lowest key / eliminated keys computation of the
`for mask_num in mask_list` loop in `_img_combine_masks`. -/
def lowElimStep (acc : Option Nat × List Nat) (n : Nat) : Option Nat × List Nat :=
  match acc.1 with
  | none => (some n, acc.2)
  | some lo => if n < lo then (some n, acc.2 ++ [lo]) else (some lo, acc.2 ++ [n])

/-- The whole `lowest_num` / `eliminated_masks` computation of
`_img_combine_masks`. -/
def lowElim (mask_list : List Nat) : Option Nat × List Nat :=
  mask_list.foldl lowElimStep (none, [])

/-- The mask-accumulation part of the same loop: open `"{n}.png"` for each
listed key and fold `ImageChops.logical_and` over them; a missing mask file
raises `FileNotFoundError`. -/
def andFoldMasks (disk : Disk) : MaskImg → List Nat → Except PyErr MaskImg
  | mask, [] => .ok mask
  | mask, n :: t =>
    match lookupKey (MaskName.num n) disk with
    | none => .error .fileNotFound
    | some m2 => andFoldMasks disk (logical_and mask m2) t

/-- Model of `ConquestMap._img_combine_masks(mask_list)`.  Returns `none` for the
`False, None, None` sentinel triples (fewer than two keys, missing blank
image, missing masks directory), otherwise the surviving lowest key, the
eliminated keys, and the combined mask built from an all-1 image of the blank
image's size. -/
def img_combine_masks (blankExists masksDirExists : Bool) (blankW blankH : Nat)
    (disk : Disk) (mask_list : List Nat) :
    Except PyErr (Option (Nat × List Nat × MaskImg)) :=
  if mask_list.length < 2 then .ok none
  else if blankExists = false then .ok none
  else if masksDirExists = false then .ok none
  else
    match andFoldMasks disk { width := blankW, height := blankH, pix := fun _ => true }
        mask_list with
    | .error e => .error e
    | .ok mask =>
      match lowElim mask_list with
      | (some lo, elim) => .ok (some (lo, elim, mask))
      | (none, _) => .ok none

/-- A mask filled at every pixel (all zeros). -/
def cexMask1 : MaskImg := { width := 1, height := 1, pix := fun _ => false }

/-- A mask filled nowhere (all ones). -/
def cexMask2 : MaskImg := { width := 1, height := 1, pix := fun _ => true }

/-- A two-file masks directory for the C1 counterexample. -/
def cexDisk : Disk := [(MaskName.num 1, cexMask1), (MaskName.num 2, cexMask2)]

/-- The combined mask `_img_combine_masks([1, 2])` produces on `cexDisk`. -/
def cexMergedMask : MaskImg :=
  logical_and (logical_and { width := 1, height := 1, pix := fun _ => true } cexMask1) cexMask2

/-- JSON scalar values carried in a region's open attribute bag.  The engine
treats these values as opaque, so arbitrary JSON payloads are abstracted to
scalar constants; `jpair` is a two-element numeric array (the persisted form
of a centre). -/
inductive JVal where
  | jnull
  | jbool (b : Bool)
  | jint (n : Int)
  | jnum (q : ℚ)
  | jstr (s : String)
  | jpair (x y : ℚ)
  deriving DecidableEq, Repr

/-- A `Region` record: centroid, pixel weight, and the `**kwargs` attribute
bag `data`.  Python floats are modelled with `ℚ`. -/
structure Region where
  center : ℚ × ℚ
  weight : Nat
  data : List (String × JVal)
  deriving DecidableEq, Repr

/-- Model of `get_center(points)`: arithmetic mean of a list of points. -/
def get_center (points : List (ℚ × ℚ)) : ℚ × ℚ :=
  ((points.map Prod.fst).sum / points.length, (points.map Prod.snd).sum / points.length)

/-- The in-memory `ConquestMap` registry state: `name`, `custom`,
`region_max` and the `regions` dict (an association list in the dict's
insertion order). -/
structure MapState where
  name : Option String
  custom : Option Bool
  region_max : Nat
  regions : List (Nat × Region)
  deriving DecidableEq, Repr

/-- Model of `max(regions.keys())` (0 on an empty dict, where Python would raise;
callers below model that raise explicitly). -/
def maxKey (regs : List (Nat × Region)) : Nat :=
  (regs.map Prod.fst).foldl max 0

/-- In-place attribute mutation of the `Region` object stored at a key
(`lowest_region.center = ...` / `.weight += ...`). -/
def updateKey (regs : List (Nat × Region)) (k : Nat) (r : Region) :
    List (Nat × Region) :=
  regs.map fun p => if p.1 = k then (k, r) else p

/-- Model of `[self.regions[n] for n in l]`: list indexing that raises `KeyError`
(modelled as `none`) on a missing key. -/
def lookupAll (regs : List (Nat × Region)) : List Nat → Option (List Region)
  | [] => some []
  | k :: t =>
    match lookupKey k regs, lookupAll regs t with
    | some r, some rest => some (r :: rest)
    | _, _ => none

/-- Model of `for key in l: regions.pop(key)` with `KeyError` *not* caught
(the eliminated-keys loop of `combine_masks`). -/
def popEach : List (Nat × Region) → List Nat → Except PyErr (List (Nat × Region))
  | regs, [] => .ok regs
  | regs, k :: t =>
    if (lookupKey k regs).isSome then popEach (eraseKey regs k) t
    else .error .keyError

/-- The mutation of the surviving (`lowest`) region performed by
`combine_masks`: the `weighted_points` list (each centre repeated once per
unit of its region's weight), the new centre `get_center(weighted_points)`,
and the incremented weight `lowest_region.weight += sum(eliminated weights)`. -/
def mergedRegion (elim_regions : List Region) (lowest_region : Region) : Region :=
  let weighted_points :=
    (elim_regions.flatMap fun r => List.replicate r.weight r.center) ++
      List.replicate lowest_region.weight lowest_region.center
  { lowest_region with
    center := get_center weighted_points,
    weight := lowest_region.weight + (elim_regions.map Region.weight).sum }

/-- Result of a registry mutation: the new in-memory state, whether
`save_data` ran (persistence), and the operation's Python return value
(`none` is the falsy `False`/`None`). -/
structure CombineOut where
  state : MapState
  disk : Disk
  saved : Bool
  retval : Option Nat

/-- Model of `MapMaker.combine_masks(mask_list)`.  Runs `_img_combine_masks`, bails out
with falsy returns on its sentinel or on a `KeyError` when collecting the
eliminated regions, saves the combined mask under the surviving key, sets the
surviving region's centre to the weight-inflated average and adds the
eliminated weights, pops the eliminated keys, recomputes `region_max` if it
was eliminated, and persists. -/
def combine_masks (st : MapState) (blankExists masksDirExists : Bool)
    (blankW blankH : Nat) (disk : Disk) (mask_list : List Nat) :
    Except PyErr CombineOut :=
  match img_combine_masks blankExists masksDirExists blankW blankH disk mask_list with
  | .error e => .error e
  | .ok none => .ok ⟨st, disk, false, none⟩
  | .ok (some (lowest, eliminated, mask)) =>
    if lowest = 0 then .ok ⟨st, disk, false, some 0⟩
    else
      match lookupAll st.regions eliminated, lookupKey lowest st.regions with
      | some elim_regions, some lowest_region =>
        let disk1 := writeEntry disk (MaskName.num lowest) mask
        match popEach (updateKey st.regions lowest
            (mergedRegion elim_regions lowest_region)) eliminated with
        | .error e => .error e
        | .ok regs1 =>
          let rmax := if st.region_max ∈ eliminated then maxKey regs1 else st.region_max
          .ok ⟨{ st with regions := regs1, region_max := rmax }, disk1, true, some lowest⟩
      | _, _ => .ok ⟨st, disk, false, none⟩

/-- The minimum of a nonempty list of keys (0 for the empty list). -/
def listMin : List Nat → Nat
  | [] => 0
  | a :: t => t.foldl min a

/-- The default-on-missing view of a registry entry (used only to state
theorems; all uses are guarded by an `isSome` hypothesis). -/
def regOf (regs : List (Nat × Region)) (k : Nat) : Region :=
  (lookupKey k regs).getD ⟨(0, 0), 0, []⟩

/-- The weight the registry stores for a key. -/
def regionWeight (st : MapState) (k : Nat) : Nat := (regOf st.regions k).weight

/-- The centre the registry stores for a key. -/
def regionCenter (st : MapState) (k : Nat) : ℚ × ℚ := (regOf st.regions k).center

/-- The registry used by the C6 witness: keys 2, 3, 5 with weights 1, 2, 3. -/
def mergeSt : MapState :=
  { name := some "map", custom := some true, region_max := 5,
    regions :=
      [(2, ⟨(0, 0), 1, []⟩), (3, ⟨(3, 3), 2, []⟩), (5, ⟨(6, 0), 3, []⟩)] }

/-- The masks directory used by the C6 witness. -/
def mergeDisk : Disk :=
  [(MaskName.num 2, ⟨2, 2, fun _ => true⟩), (MaskName.num 3, ⟨2, 2, fun _ => true⟩),
    (MaskName.num 5, ⟨2, 2, fun c => decide (c ≠ (0, 0))⟩)]

/-- The `try: for key in mask_list: self.regions.pop(key) ... except KeyError:`
loop of `delete_masks`: pops keys one at a time until one is missing; returns
the (possibly partially popped) registry and whether every pop succeeded. -/
def popKeys : List (Nat × Region) → List Nat → List (Nat × Region) × Bool
  | regs, [] => (regs, true)
  | regs, k :: t =>
    if (lookupKey k regs).isSome then popKeys (eraseKey regs k) t else (regs, false)

/-- Model of `MapMaker.delete_masks(mask_list)`: pop each listed key (returning `False`
on a `KeyError`, keeping the pops already done), recompute `region_max` when
it was among the deleted keys (`max()` raising `ValueError` if the registry
became empty), regenerate overlays, persist, and return the key list.  The
`Bool` of the result is whether `save_data` ran. -/
def delete_masks (st : MapState) (mask_list : List Nat) :
    Except PyErr (MapState × Bool × Option (List Nat)) :=
  match popKeys st.regions mask_list with
  | (regs1, false) => .ok ({ st with regions := regs1 }, false, none)
  | (regs1, true) =>
    if st.region_max ∈ mask_list then
      if regs1 = [] then .error .valueError
      else .ok ({ st with regions := regs1, region_max := maxKey regs1 }, true,
        some mask_list)
    else .ok ({ st with regions := regs1 }, true, some mask_list)

/-- The two-region registry used to refute C4. -/
def delSt : MapState :=
  { name := none, custom := none, region_max := 2,
    regions := [(1, ⟨(0, 0), 1, []⟩), (2, ⟨(1, 1), 1, []⟩)] }

/-- What is left of `delSt` after the failing `delete_masks([1, 99])` call. -/
def delStAfter : MapState :=
  { delSt with regions := [(2, ⟨(1, 1), 1, []⟩)] }

/-- Model of `Region.get_json()`, the dict `\x7b"center": ..., "weight": ..., **self.data\x7d`.
Since `data` comes from `**kwargs`, it can never itself contain the keys
`"center"` or `"weight"` (Python would have bound those to the named
parameters), so the merge is a plain prepend. -/
def Region.get_json (r : Region) : List (String × JVal) :=
  ("center", JVal.jpair r.center.1 r.center.2) ::
    ("weight", JVal.jint r.weight) :: r.data

/-- Model of `Region(**data)` applied to a parsed JSON object in `load_data`:
`center` and `weight` bind to the named parameters, everything else becomes
the `data` bag.  Returns `none` where Python would raise `TypeError`
(missing keys) — `save_data` always produces the well-formed shape. -/
def regionOfJson (l : List (String × JVal)) : Option Region :=
  match lookupKey "center" l, lookupKey "weight" l with
  | some (JVal.jpair x y), some (JVal.jint w) =>
    if 0 ≤ w then
      some ⟨(x, y), w.toNat,
        l.filter fun p => decide (p.1 ≠ "center") && decide (p.1 ≠ "weight")⟩
    else none
  | _, _ => none

/-- The persisted form of a map (`data.json`): JSON object keys are decimal
numerals, modelled as the `Nat` they denote. -/
structure SavedData where
  name : Option String
  custom : Option Bool
  region_max : Nat
  regions : List (Nat × List (String × JVal))
  deriving DecidableEq, Repr

/-- Insertion step of the `sort_keys=True` ordering `json.dump` applies. -/
def insertByKey {β : Type} (p : Nat × β) : List (Nat × β) → List (Nat × β)
  | [] => [p]
  | q :: t => if p.1 ≤ q.1 then p :: q :: t else q :: insertByKey p t

/-- The `sort_keys=True` ordering `json.dump` applies to the regions dict
(`int` keys compare numerically before being written as decimal strings). -/
def sortByKey {β : Type} : List (Nat × β) → List (Nat × β)
  | [] => []
  | p :: t => insertByKey p (sortByKey t)

/-- Model of `MapMaker.save_data()`: serialize name, custom, region_max and each
region via `get_json`, with sorted keys. -/
def save_data (st : MapState) : SavedData :=
  ⟨st.name, st.custom, st.region_max,
    (sortByKey st.regions).map fun p => (p.1, p.2.get_json)⟩

/-- The dict comprehension of `load_data`:
`{int(key): Region(**data) for key, data in data["regions"].items()}`. -/
def parseRegions : List (Nat × List (String × JVal)) → Option (List (Nat × Region))
  | [] => some []
  | (k, j) :: t =>
    match regionOfJson j, parseRegions t with
    | some r, some rest => some ((k, r) :: rest)
    | _, _ => none

/-- Model of `ConquestMap.load_data()`. -/
def load_data (d : SavedData) : Option MapState :=
  match parseRegions d.regions with
  | some regions => some ⟨d.name, d.custom, d.region_max, regions⟩
  | none => none

/-- The registry used by the C9 witness: out-of-order keys, an attribute bag
with a display name, fractional centres. -/
def rtSt : MapState :=
  { name := some "two", custom := some false, region_max := 7,
    regions :=
      [(7, ⟨(1/2, 3), 4, [("name", JVal.jstr "Alpha"), ("owner", JVal.jint 3)]⟩),
        (2, ⟨(5, 6), 1, []⟩)] }

/-- Whether a mask-file name has a numeric stem (`int(mask.stem)` succeeds). -/
def MaskName.isNumStem : MaskName → Bool
  | MaskName.num _ => true
  | MaskName.old _ => false

/-- Phase 1 of `prune_masks`: iterate the masks directory in listing order,
take `int(mask.stem)` (which raises `ValueError` on a non-numeric `_old`
stem), unlink every file whose numeric name is not a registry key, and
collect the pruned stems in iteration order.  (The partially-unlinked disk at
a raise is not tracked; no claim observes state after an uncaught raise.) -/
def pruneScan : Disk → List Nat → Except PyErr (Disk × List Nat)
  | [], _ => .ok ([], [])
  | (MaskName.old _, _) :: _, _ => .error .valueError
  | (MaskName.num n, m) :: t, keys =>
    match pruneScan t keys with
    | .error e => .error e
    | .ok (d1, pruned) =>
      if n ∈ keys then .ok ((MaskName.num n, m) :: d1, pruned)
      else .ok (d1, n :: pruned)

/-- Model of `enumerate(.., start=c)` over a list of regions: the renumbered registry
phase 2 of `prune_masks` builds. -/
def enumRegions : Nat → List Region → List (Nat × Region)
  | _, [] => []
  | c, r :: t => (c, r) :: enumRegions (c + 1) t

/-- Phase 2 of `prune_masks`: walk the registry in its stored order paired
with `newnum = 1, 2, ...`; keep the region under its new number; when the
numbers differ, rename `{num}.png` to `{newnum}.png` (`Path.rename`,
overwriting any existing target as on POSIX), raising `FileNotFoundError` if
the source file is missing. -/
def pruneRenames : Disk → Nat → List (Nat × Region) →
    Except PyErr (Disk × List (Nat × Region))
  | d, _, [] => .ok (d, [])
  | d, newnum, (num, r) :: t =>
    if newnum = num then
      match pruneRenames d (newnum + 1) t with
      | .error e => .error e
      | .ok (d1, rest) => .ok (d1, (newnum, r) :: rest)
    else
      match lookupKey (MaskName.num num) d with
      | none => .error .fileNotFound
      | some m =>
        match pruneRenames
            (writeEntry (eraseKey d (MaskName.num num)) (MaskName.num newnum) m)
            (newnum + 1) t with
        | .error e => .error e
        | .ok (d1, rest) => .ok (d1, (newnum, r) :: rest)

/-- The renames of phase 2 again, but through a rename that *fails* whenever
the target file already exists.  Success of this function certifies that no
rename of the phase ever overwrites a mask file that has not been renamed
yet. -/
def pruneRenamesChecked : Disk → Nat → List (Nat × Region) → Option Disk
  | d, _, [] => some d
  | d, newnum, (num, _) :: t =>
    if newnum = num then pruneRenamesChecked d (newnum + 1) t
    else
      match lookupKey (MaskName.num num) d with
      | none => none
      | some m =>
        if (lookupKey (MaskName.num newnum) d).isSome then none
        else pruneRenamesChecked
          (writeEntry (eraseKey d (MaskName.num num)) (MaskName.num newnum) m)
          (newnum + 1) t

/-- Model of `MapMaker.prune_masks()`: phase 1 then phase 2, then
`region_max = max(regions.keys())` (raising `ValueError` on an empty
registry), persist, and return the pruned stems. -/
def prune_masks (st : MapState) (disk : Disk) :
    Except PyErr (MapState × Disk × Bool × List Nat) :=
  match pruneScan disk (st.regions.map Prod.fst) with
  | .error e => .error e
  | .ok (disk1, pruned) =>
    match pruneRenames disk1 1 st.regions with
    | .error e => .error e
    | .ok (disk2, new_regions) =>
      if new_regions = [] then .error .valueError
      else .ok ({ st with regions := new_regions, region_max := maxKey new_regions }, disk2, true, pruned)

/-- The registry used by the C5 witness: keys `{1, 3, 4}` (key 2 was
deleted), as in the spec's prune example. -/
def pruneSt : MapState :=
  { name := some "map", custom := none, region_max := 4,
    regions := [(1, ⟨(0, 0), 1, []⟩), (3, ⟨(2, 2), 1, []⟩), (4, ⟨(3, 3), 1, []⟩)] }

/-- The masks directory used by the C5 witness: files `1..4`, so `2.png` is
an orphan. -/
def pruneDisk : Disk :=
  [(MaskName.num 1, ⟨4, 4, fun c => decide (c ≠ (0, 0))⟩),
    (MaskName.num 2, ⟨4, 4, fun c => decide (c ≠ (1, 0))⟩),
    (MaskName.num 3, ⟨4, 4, fun c => decide (c ≠ (2, 0))⟩),
    (MaskName.num 4, ⟨4, 4, fun c => decide (c ≠ (3, 0))⟩)]

/-- The chunk list produced by `chunker` for a positive size, by structural
recursion on a step counter that `chunksAux_len` shows is never exhausted
when it starts at the sequence length. -/
def chunksAux (size : Nat) : Nat → List α → List (List α)
  | _, [] => []
  | 0, _ :: _ => []
  | fuel + 1, a :: t => ((a :: t).take size) :: chunksAux size fuel ((a :: t).drop size)

/-- The chunk list produced by `chunker` for a positive size:
`seq[0:size], seq[size:2*size], ...`. -/
def chunks (size : Nat) (_hs : 0 < size) (seq : List α) : List (List α) :=
  chunksAux size seq.length seq

/-- Model of `chunker(seq, size)`: a generator over `range(0, len(seq), size)`.  The
generator expression evaluates `range(...)` eagerly when `chunker` is called,
so `size == 0` raises `ValueError: range() arg 3 must not be zero` at the
call site. -/
def chunker (seq : List α) (size : Nat) : Except PyErr (List (List α)) :=
  if h : size = 0 then .error .valueError
  else .ok (chunks size (Nat.pos_of_ne_zero h) seq)

/-- The `region_color`/`wall_color` seed test of the scan:
`(region_color is None and pixel != wall) or pixel == region_color`. -/
def seedCond (region_color : Option Nat) (wall p : Nat) : Bool :=
  (region_color.isNone && decide (p ≠ wall)) || decide (region_color = some p)

/-- State threaded through the nested scan loops of `Regioner.execute`. -/
structure ScanState where
  grid : Grid
  already_processed : List Coord
  mask_count : Nat
  masks : List (Nat × MaskImg)
  regions : List (Nat × Region)

/-- A point list cast to rational coordinates (for `get_center`). -/
def coordQ (c : Coord) : ℚ × ℚ := ((c.1 : ℚ), (c.2 : ℚ))

/-- The body of the scan: skip already-claimed pixels; on a seed, flood fill
with `value = border = wall_color` and `thresh = 0`; a non-empty fill becomes
the next numbered mask (a mode-"1" image, 0 on the filled pixels, 255
elsewhere) and `Region(center=get_center(filled), weight=len(filled))`. -/
def scanStep (wall : Nat) (region_color : Option Nat) (fuel : Nat)
    (st : ScanState) (c : Coord) : ScanState :=
  if c ∈ st.already_processed then st
  else if seedCond region_color wall (st.grid.pix c) then
    let res := floodfill fuel st.grid c wall (some wall) 0
    if res.2.isEmpty then { st with grid := res.1 }
    else
      { grid := res.1,
        already_processed := st.already_processed ++ res.2,
        mask_count := st.mask_count + 1,
        masks := st.masks ++ [(st.mask_count + 1,
          ⟨st.grid.width, st.grid.height, fun d => decide (d ∉ res.2)⟩)],
        regions := st.regions ++ [(st.mask_count + 1,
          ⟨get_center (res.2.map coordQ), res.2.length, []⟩)] }
  else st

/-- Model of `Regioner.execute()`.  Returns `.ok none` for the falsy `False` when the
base image is missing; raises `ValueError` out of `chunker` when
`height // 10` is zero, or (once at least one row is visited, which the outer
chunker's success guarantees) when `width // 10` is zero; otherwise scans the
chunked coordinates — the nested `for` loops traverse exactly the
concatenation of the chunks — and returns the masks and regions.  (The mask
files are written into the masks directory; they are returned here as the
run's output list.  The label-overlay regeneration is not modelled.) -/
def execute (baseExists : Bool) (g : Grid) (wall : Nat)
    (region_color : Option Nat) :
    Except PyErr (Option (List (Nat × MaskImg) × List (Nat × Region))) :=
  if baseExists = false then .ok none
  else
    match chunker (List.range g.height) (g.height / 10) with
    | .error e => .error e
    | .ok ychunks =>
      match chunker (List.range g.width) (g.width / 10) with
      | .error e => .error e
      | .ok xchunks =>
        let coords := ychunks.flatten.flatMap fun y =>
          xchunks.flatten.map fun x => ((x : Int), (y : Int))
        let st := coords.foldl
          (scanStep wall region_color (g.width * g.height + 1))
          ⟨g, [], 0, [], []⟩
        .ok (some (st.masks, st.regions))

/-- Model of `MapMaker.generate_masks()`: run the regioner on `blank.png` with the
default black wall colour; on a falsy result (missing file or empty dict)
return it unchanged without touching state; otherwise install the new
registry, set `region_max = len(regions) + 1`, and persist. -/
def generate_masks (baseExists : Bool) (g : Grid) (st : MapState) :
    Except PyErr (MapState × Bool × Option (List (Nat × Region))) :=
  match execute baseExists g 0 none with
  | .error e => .error e
  | .ok none => .ok (st, false, none)
  | .ok (some (_, regions)) =>
    if regions.isEmpty then .ok (st, false, some [])
    else .ok ({ st with regions := regions, region_max := regions.length + 1 },
      true, some regions)

/-- Relation between flood-fill loop states under border mode with fill value
`value`: the grid changes only by writing `value`; `new_edge` grows; and
every new `new_edge` entry was not `value` before and is `value` after. -/
def FloodOK (value : Nat) (st st2 : FState) : Prop :=
  (∀ d, st2.grid.pix d = st.grid.pix d ∨ st2.grid.pix d = value) ∧
  (∀ d ∈ st.newEdge, d ∈ st2.newEdge) ∧
  (∀ d ∈ st2.newEdge, d ∈ st.newEdge ∨
    (¬st.grid.pix d = value ∧ st2.grid.pix d = value))

/-- The invariant of the scan: the masks produced so far are pairwise
disjoint at the membership (filled = 0) level, and every filled pixel of
every produced mask currently holds the wall colour in the grid. -/
def ScanInv (wall : Nat) (st : ScanState) : Prop :=
  List.Pairwise (fun a b : Nat × MaskImg =>
    ∀ p : Coord, a.2.pix p = false → ¬b.2.pix p = false) st.masks ∧
  ∀ mk ∈ st.masks, ∀ p : Coord, mk.2.pix p = false → st.grid.pix p = wall

/-- Insertion step of a stable sort by a boolean `le`. -/
def insertLe {α : Type} (le : α → α → Bool) (a : α) : List α → List α
  | [] => [a]
  | b :: t => if le a b then a :: b :: t else b :: insertLe le a t

/-- A stable sort by a boolean `le`.  Python's `list.sort` (Timsort) is
stable; this insertion sort is stable too, and any two stable sorts agree, so
it is a faithful model of both `points.sort(key=...)` and
`regions.sort(key=...)`. -/
def sortLe {α : Type} (le : α → α → Bool) : List α → List α
  | [] => []
  | a :: t => insertLe le a (sortLe le t)

/-- All in-bounds coordinates as (x, y) pairs, row-major (the order
`numpy.where` reports them in). -/
def gridCoords (w h : Nat) : List Coord :=
  (List.range h).flatMap fun y => (List.range w).map fun x => ((x : Int), (y : Int))

/-- The pixel extraction of `get_points_from_mask`: the filled (0) coordinates of
a mask image.  (Python materializes them as an unordered `set`; downstream
only the minimal y coordinate of the list matters, which no reordering can
change.) -/
def maskPoints (m : MaskImg) : List Coord :=
  (gridCoords m.width m.height).filter fun c => decide (m.pix c = false)

/-- Model of `MapMaker.get_points_from_mask(region)`: open the mask file (raising if
missing) and extract its filled pixels. -/
def get_points_from_mask (disk : Disk) (region : Nat) :
    Except PyErr (List Coord) :=
  match lookupKey (MaskName.num region) disk with
  | none => .error .fileNotFound
  | some m => .ok (maskPoints m)

/-- The first loop of `sort_regions(fast_sort=True)`: for each registry key
in stored order, read the mask's points, sort them by the y coordinate, and
take `points[0]` (raising `IndexError` on an empty mask) as the
representative, paired with the key. -/
def buildReps (disk : Disk) :
    List (Nat × Region) → Except PyErr (List (Coord × Nat))
  | [] => .ok []
  | (num, _) :: t =>
    match get_points_from_mask disk num with
    | .error e => .error e
    | .ok pts =>
      match sortLe (fun a b => decide (a.2 ≤ b.2)) pts with
      | [] => .error .indexError
      | p :: _ =>
        match buildReps disk t with
        | .error e => .error e
        | .ok rest => .ok ((p, num) :: rest)

/-- The first rename pass of `sort_regions`: `{num}.png -> {num}_old.png` for
every registry key in stored order (missing source raises). -/
def renameToOld : Disk → List Nat → Except PyErr Disk
  | d, [] => .ok d
  | d, k :: t =>
    match lookupKey (MaskName.num k) d with
    | none => .error .fileNotFound
    | some m =>
      renameToOld (writeEntry (eraseKey d (MaskName.num k)) (MaskName.old k) m) t

/-- The second rename pass:
`for new_num, old_num in enumerate((r[1] for r in regions), start=1)`:
rename `{old_num}_old.png -> {new_num}.png` and build the renumbered
registry `new_regions[new_num] = self.regions[old_num]`. -/
def renameFromOld (regs : List (Nat × Region)) :
    Disk → Nat → List Nat → Except PyErr (Disk × List (Nat × Region))
  | d, _, [] => .ok (d, [])
  | d, newnum, oldnum :: t =>
    match lookupKey (MaskName.old oldnum) d with
    | none => .error .fileNotFound
    | some m =>
      match lookupKey oldnum regs with
      | none => .error .keyError
      | some r =>
        match renameFromOld regs
            (writeEntry (eraseKey d (MaskName.old oldnum)) (MaskName.num newnum) m)
            (newnum + 1) t with
        | .error e => .error e
        | .ok (d2, rest) => .ok (d2, (newnum, r) :: rest)

/-- Model of `MapMaker.sort_regions(fast_sort)`: the non-fast strategy raises
`NotImplementedError`; the fast strategy builds the topmost-point
representatives, sorts them by y ascending (stably), then renumbers through
the two rename passes.  `region_max` is never touched. -/
def sort_regions (st : MapState) (disk : Disk) (fast_sort : Bool) :
    Except PyErr (MapState × Disk × Bool) :=
  if fast_sort = false then .error .notImplemented
  else
    match buildReps disk st.regions with
    | .error e => .error e
    | .ok reps =>
      match renameToOld disk (st.regions.map Prod.fst) with
      | .error e => .error e
      | .ok disk1 =>
        match renameFromOld st.regions disk1 1
            ((sortLe (fun a b => decide (a.1.2 ≤ b.1.2)) reps).map Prod.snd) with
        | .error e => .error e
        | .ok (disk2, new_regions) =>
          .ok ({ st with regions := new_regions }, disk2, true)

/-- The registry used to refute C2: keys `{2, 5}` with `region_max = 5`. -/
def sortCexSt : MapState :=
  { name := none, custom := none, region_max := 5,
    regions := [(2, ⟨(0, 0), 1, []⟩), (5, ⟨(0, 1), 1, []⟩)] }

/-- Masks for `sortCexSt`: region 2's topmost pixel is y = 0, region 5's is
y = 1. -/
def sortCexDisk : Disk :=
  [(MaskName.num 2, ⟨2, 2, fun c => decide (c ≠ (0, 0))⟩),
    (MaskName.num 5, ⟨2, 2, fun c => decide (c ≠ (0, 1))⟩)]

/-- A 10×10 base image that is all wall colour except one pixel, giving one
region. -/
def gOneSeed : Grid := ⟨10, 10, fun c => if c = (3, 3) then 255 else 0⟩

/-- The masks a concrete `execute` run returns (for the C2 witness). -/
def genMasks : List (Nat × MaskImg) :=
  match execute true gOneSeed 0 none with
  | .ok (some (m, _)) => m
  | _ => []

/-- The regions a concrete `execute` run returns (for the C2 witness). -/
def genRegions : List (Nat × Region) :=
  match execute true gOneSeed 0 none with
  | .ok (some (_, r)) => r
  | _ => []

/-- The state `sort_regions` returns on the C2 counterexample input. -/
def sortCexOutSt : MapState :=
  match sort_regions sortCexSt sortCexDisk true with
  | .ok (st1, _, _) => st1
  | _ => sortCexSt

/-- The disk `sort_regions` returns on the C2 counterexample input. -/
def sortCexOutDisk : Disk :=
  match sort_regions sortCexSt sortCexDisk true with
  | .ok (_, d, _) => d
  | _ => sortCexDisk

/-- Whether a key's mask file exists and has at least one filled pixel
(the precondition of the fast sort's `points[0]`). -/
def hasNonemptyMask (disk : Disk) (k : Nat) : Bool :=
  match lookupKey (MaskName.num k) disk with
  | some m => !(maskPoints m).isEmpty
  | none => false

/-- The y-ordering used for points. -/
def yLe (a b : Coord) : Bool := decide (a.2 ≤ b.2)

/-- The y-ordering used for (representative, key) pairs. -/
def repLe (a b : Coord × Nat) : Bool := decide (a.1.2 ≤ b.1.2)

/-- A 1×51 mask filled at a single pixel of the given y coordinate. -/
def colMask (y : Int) : MaskImg := ⟨1, 51, fun c => decide (c ≠ (0, y))⟩

/-- Registry for the C8 witness: three regions whose topmost mask pixels are
at y = 50, y = 10, y = 30 respectively. -/
def sortSt3 : MapState :=
  { name := some "s", custom := none, region_max := 3,
    regions := [(1, ⟨(0, 50), 1, []⟩), (2, ⟨(0, 10), 1, []⟩), (3, ⟨(0, 30), 1, []⟩)] }

/-- Masks for `sortSt3`. -/
def sortDisk3 : Disk :=
  [(MaskName.num 1, colMask 50), (MaskName.num 2, colMask 10),
    (MaskName.num 3, colMask 30)]

theorem color_diff_eq_zero {a b : Nat} : color_diff a b = 0 ↔ a = b := by
  unfold color_diff; omega

/-- C10: flood fill is a no-op in both degenerate cases: a seed outside the
grid, or a seed pixel whose colour already differs from the fill value by at
most the threshold.  In both cases the returned filled set is empty and the
grid is returned unchanged. -/
theorem floodfill_degenerate (fuel : Nat) (g : Grid) (xy : Coord) (value : Nat)
    (border : Option Nat) (thresh : Nat)
    (h : ¬g.inB xy ∨ color_diff value (g.pix xy) ≤ thresh) :
    floodfill fuel g xy value border thresh = (g, []) := by
  unfold floodfill
  rcases h with h | h
  · simp [h]
  · by_cases hb : g.inB xy <;> simp [hb, h]

/-- Witness for C10 at a concrete input: a 1×1 all-zero grid with seed (0,0)
and fill value 0 (already matching), and the same grid with seed (5,5)
(out of bounds). -/
theorem floodfill_degenerate_witness :
    (color_diff 0 ((Grid.mk 1 1 fun _ => 0).pix (0, 0)) ≤ 0 ∧
      floodfill 9 (Grid.mk 1 1 fun _ => 0) (0, 0) 0 none 0 =
        (Grid.mk 1 1 fun _ => 0, [])) ∧
    (¬(Grid.mk 1 1 fun _ => 0).inB (5, 5) ∧
      floodfill 9 (Grid.mk 1 1 fun _ => 0) (5, 5) 0 none 0 =
        (Grid.mk 1 1 fun _ => 0, [])) := by
  refine ⟨⟨by decide, floodfill_degenerate 9 _ _ 0 none 0 (Or.inr (by decide))⟩,
    ⟨by decide, floodfill_degenerate 9 _ _ 0 none 0 (Or.inl (by decide))⟩⟩

theorem lookup_append {α β : Type} [DecidableEq α] (l1 l2 : List (α × β)) (k : α) :
    lookupKey k (l1 ++ l2) =
      match lookupKey k l1 with
      | some v => some v
      | none => lookupKey k l2 := by
  induction l1 with
  | nil => simp [lookupKey]
  | cons p t ih =>
    by_cases hpk : p.1 = k <;> simp [lookupKey, hpk, ih]

theorem lookup_eraseKey {α β : Type} [DecidableEq α] (d : List (α × β)) (n k : α) :
    lookupKey k (eraseKey d n) = if k = n then none else lookupKey k d := by
  induction d with
  | nil => simp [eraseKey, lookupKey]
  | cons p t ih =>
    by_cases hp : p.1 = n
    · have hstep : eraseKey (p :: t) n = eraseKey t n := by
        simp [eraseKey, List.filter, hp]
      rw [hstep, ih]
      by_cases hk : k = n
      · simp [hk]
      · have hpk : ¬p.1 = k := fun h => hk (h.symm.trans hp)
        simp [lookupKey, hk, hpk]
    · have hstep : eraseKey (p :: t) n = p :: eraseKey t n := by
        simp [eraseKey, List.filter, hp]
      rw [hstep]
      by_cases hpk : p.1 = k
      · have hk : ¬k = n := fun h => hp (hpk.trans h)
        simp [lookupKey, hpk, hk]
      · simp [lookupKey, hpk, ih]

theorem lookup_writeEntry {α β : Type} [DecidableEq α] (d : List (α × β)) (n : α)
    (m : β) (k : α) :
    lookupKey k (writeEntry d n m) = if k = n then some m else lookupKey k d := by
  unfold writeEntry
  rw [lookup_append, lookup_eraseKey]
  by_cases hk : k = n
  · simp [hk, lookupKey]
  · have hnk : ¬n = k := fun h => hk h.symm
    cases h : lookupKey k d <;> simp [hk, hnk, lookupKey]

theorem andFoldMasks_pix (disk : Disk) (l : List Nat) (acc m : MaskImg)
    (h : andFoldMasks disk acc l = .ok m) (c : Coord) :
    (m.pix c = false ↔ acc.pix c = false ∨
      ∃ k ∈ l, ∃ mk, lookupKey (MaskName.num k) disk = some mk ∧ mk.pix c = false) := by
  induction l generalizing acc with
  | nil =>
    simp only [andFoldMasks, Except.ok.injEq] at h
    subst h; simp
  | cons n t ih =>
    simp only [andFoldMasks] at h
    cases hl : lookupKey (MaskName.num n) disk with
    | none => rw [hl] at h; exact absurd h (by simp)
    | some m2 =>
      rw [hl] at h
      have := ih _ h
      rw [this]
      constructor
      · rintro (hacc | hrest)
        · rcases Bool.and_eq_false_iff.mp hacc with ha | ha
          · exact Or.inl ha
          · exact Or.inr ⟨n, by simp, m2, hl, ha⟩
        · obtain ⟨k, hk, mk, hmk, hpix⟩ := hrest
          exact Or.inr ⟨k, by simp [hk], mk, hmk, hpix⟩
      · rintro (hacc | ⟨k, hk, mk, hmk, hpix⟩)
        · exact Or.inl (by simp [logical_and, hacc])
        · rcases List.mem_cons.mp hk with rfl | hk
          · rw [hl] at hmk
            injection hmk with hmk
            subst hmk
            exact Or.inl (by simp [logical_and, hpix])
          · exact Or.inr ⟨k, hk, mk, hmk, hpix⟩

/-- C1 (amended): the mask written for the surviving key of a merge is the
pixel-wise `logical_and` of the 1-bit masks starting from an all-1 image, so a
pixel is *filled* (value 0, membership) in the combined mask iff it is filled
in **at least one** input mask — the union of the memberships, not their
intersection. -/
theorem img_combine_masks_membership (blankExists masksDirExists : Bool)
    (blankW blankH : Nat) (disk : Disk) (mask_list : List Nat)
    (lo : Nat) (elim : List Nat) (m : MaskImg)
    (h : img_combine_masks blankExists masksDirExists blankW blankH disk mask_list =
      .ok (some (lo, elim, m))) (c : Coord) :
    m.pix c = false ↔
      ∃ k ∈ mask_list, ∃ mk, lookupKey (MaskName.num k) disk = some mk ∧ mk.pix c = false := by
  unfold img_combine_masks at h
  split at h
  · exact absurd h (by simp)
  · split at h
    · exact absurd h (by simp)
    · split at h
      · exact absurd h (by simp)
      · cases hfold : andFoldMasks disk
            { width := blankW, height := blankH, pix := fun _ => true } mask_list with
        | error e => rw [hfold] at h; exact absurd h (by simp)
        | ok mask =>
          rw [hfold] at h
          cases hle : lowElim mask_list with
          | mk lo' elim' =>
            rw [hle] at h
            cases lo' with
            | none => exact absurd h (by simp)
            | some lo'' =>
              simp only [Except.ok.injEq, Option.some.injEq, Prod.mk.injEq] at h
              obtain ⟨-, -, hm⟩ := h
              subst hm
              simpa using andFoldMasks_pix disk mask_list _ mask hfold c

/-- C1 (counterexample): merging keys 1 and 2 of `cexDisk`, the pixel (0,0) is
filled (0) in the merged mask even though it is *not* filled in input mask 2 —
refuting "filled in the merge iff filled in every input mask". -/
theorem img_combine_masks_intersection_cex :
    cexMergedMask.pix (0, 0) = false ∧ cexMask2.pix (0, 0) = true ∧
    ¬(cexMergedMask.pix (0, 0) = false ↔
        cexMask1.pix (0, 0) = false ∧ cexMask2.pix (0, 0) = false) := by
  refine ⟨rfl, rfl, ?_⟩
  intro hiff
  have := hiff.mp rfl
  simp [cexMask2] at this

/-- Witness for the amended C1 theorem at the concrete `cexDisk` input. -/
theorem img_combine_masks_membership_witness :
    img_combine_masks true true 1 1 cexDisk [1, 2] = .ok (some (1, [2], cexMergedMask)) ∧
    (cexMergedMask.pix (0, 0) = false ↔
      ∃ k ∈ [1, 2], ∃ mk, lookupKey (MaskName.num k) cexDisk = some mk ∧
        mk.pix (0, 0) = false) :=
  ⟨rfl, img_combine_masks_membership true true 1 1 cexDisk [1, 2] 1 [2] cexMergedMask rfl (0, 0)⟩

theorem foldl_min_spec (t : List Nat) (a : Nat) :
    t.foldl min a ≤ a ∧ (t.foldl min a = a ∨ t.foldl min a ∈ t) ∧
      ∀ x ∈ t, t.foldl min a ≤ x := by
  induction t generalizing a with
  | nil => simp
  | cons b t ih =>
    have h := ih (min a b)
    refine ⟨le_trans h.1 (min_le_left a b), ?_, ?_⟩
    · rcases h.2.1 with heq | hmem
      · rcases le_total a b with hab | hba
        · left
          rw [List.foldl_cons, heq, min_eq_left hab]
        · right
          rw [List.foldl_cons, heq, min_eq_right hba]
          exact List.mem_cons_self b t
      · right
        exact List.mem_cons_of_mem b hmem
    · intro x hx
      rcases List.mem_cons.mp hx with rfl | hx
      · exact le_trans h.1 (min_le_right a x)
      · exact h.2.2 x hx

theorem listMin_spec (l : List Nat) (hl : l ≠ []) :
    listMin l ∈ l ∧ ∀ x ∈ l, listMin l ≤ x := by
  cases l with
  | nil => exact absurd rfl hl
  | cons a t =>
    have h := foldl_min_spec t a
    refine ⟨?_, ?_⟩
    · rcases h.2.1 with heq | hmem
      · rw [listMin, heq]; exact List.mem_cons_self a t
      · exact List.mem_cons_of_mem a hmem
    · intro x hx
      rcases List.mem_cons.mp hx with rfl | hx
      · exact h.1
      · exact h.2.2 x hx

theorem lowElim_go (l : List Nat) (lo : Nat) (e : List Nat) :
    ∃ m e2, l.foldl lowElimStep (some lo, e) = (some m, e ++ e2) ∧
      (∀ x ∈ lo :: l, m ≤ x) ∧ (m :: e2).Perm (lo :: l) := by
  induction l generalizing lo e with
  | nil => exact ⟨lo, [], by simp, by simp, by simp⟩
  | cons n t ih =>
    by_cases h : n < lo
    · obtain ⟨m, e2, hfold, hmin, hperm⟩ := ih n (e ++ [lo])
      refine ⟨m, lo :: e2, ?_, ?_, ?_⟩
      · rw [List.foldl_cons]
        show t.foldl lowElimStep (lowElimStep (some lo, e) n) = _
        rw [show lowElimStep (some lo, e) n = (some n, e ++ [lo]) by
          simp [lowElimStep, h]]
        rw [hfold, List.append_assoc]
        rfl
      · intro x hx
        rcases List.mem_cons.mp hx with rfl | hx
        · exact le_trans (hmin n (List.mem_cons_self n t)) (le_of_lt h)
        · exact hmin x (by simpa using hx)
      · exact (List.Perm.swap lo m e2).trans (hperm.cons lo)
    · obtain ⟨m, e2, hfold, hmin, hperm⟩ := ih lo (e ++ [n])
      refine ⟨m, n :: e2, ?_, ?_, ?_⟩
      · rw [List.foldl_cons]
        show t.foldl lowElimStep (lowElimStep (some lo, e) n) = _
        rw [show lowElimStep (some lo, e) n = (some lo, e ++ [n]) by
          simp [lowElimStep, h]]
        rw [hfold, List.append_assoc]
        rfl
      · intro x hx
        rcases List.mem_cons.mp hx with rfl | hx
        · exact hmin x (List.mem_cons_self x t)
        · rcases List.mem_cons.mp hx with rfl | hx
          · exact le_trans (hmin lo (List.mem_cons_self lo t)) (le_of_not_lt h)
          · exact hmin x (by simp [hx])
      · exact ((List.Perm.swap n m e2).trans (hperm.cons n)).trans (List.Perm.swap lo n t)

theorem lowElim_min (l : List Nat) (hl : l ≠ []) :
    ∃ e2, lowElim l = (some (listMin l), e2) ∧ (listMin l :: e2).Perm l := by
  cases l with
  | nil => exact absurd rfl hl
  | cons a t =>
    obtain ⟨m, e2, hfold, hmin, hperm⟩ := lowElim_go t a []
    have hfold' : lowElim (a :: t) = (some m, e2) := by
      rw [lowElim, List.foldl_cons]
      show t.foldl lowElimStep (lowElimStep (none, []) a) = _
      rw [show lowElimStep (none, []) a = (some a, []) from rfl]
      simpa using hfold
    have hm : m = listMin (a :: t) := by
      have hspec := listMin_spec (a :: t) (by simp)
      have h1 : m ≤ listMin (a :: t) := by
        rcases List.mem_cons.mp hspec.1 with heq | hmem
        · rw [heq]; exact hmin a (List.mem_cons_self a t)
        · exact hmin _ (List.mem_cons_of_mem a hmem)
      have h2 : listMin (a :: t) ≤ m := hspec.2 m (hperm.subset (List.mem_cons_self m e2))
      omega
    exact ⟨e2, hm ▸ hfold', hm ▸ hperm⟩

theorem lookup_updateKey (regs : List (Nat × Region)) (ko : Nat) (r : Region) (k : Nat) :
    lookupKey k (updateKey regs ko r) =
      if k = ko then (lookupKey ko regs).map fun _ => r else lookupKey k regs := by
  induction regs with
  | nil => simp [updateKey, lookupKey]
  | cons p t ih =>
    simp only [updateKey, List.map_cons] at ih ⊢
    by_cases hp : p.1 = ko
    · rw [if_pos hp]
      by_cases hk : k = ko
      · subst hk
        simp [lookupKey, hp]
      · have hkk : ¬ko = k := fun h2 => hk h2.symm
        have hpk : ¬p.1 = k := fun h2 => hk (h2.symm.trans hp)
        simp [lookupKey, hk, hkk, hpk, ih]
    · rw [if_neg hp]
      by_cases hpk : p.1 = k
      · have hk : ¬k = ko := fun h2 => hp (hpk.trans h2)
        simp [lookupKey, hpk, hk]
      · by_cases hk : k = ko
        · subst hk
          have hpk2 : ¬p.1 = k := hpk
          simp [lookupKey, hpk2, ih, hp]
        · simp [lookupKey, hpk, hk, ih]

theorem lookupAll_eq (regs : List (Nat × Region)) (l : List Nat)
    (h : ∀ k ∈ l, (lookupKey k regs).isSome = true) :
    lookupAll regs l = some (l.map (regOf regs)) := by
  induction l with
  | nil => simp [lookupAll]
  | cons k t ih =>
    obtain ⟨r, hr⟩ := Option.isSome_iff_exists.mp (h k (by simp))
    rw [List.map_cons]
    simp only [lookupAll, hr, ih fun k hk => h k (by simp [hk])]
    simp [regOf, hr]

theorem popEach_ok (regs : List (Nat × Region)) (l : List Nat) (hnd : l.Nodup)
    (h : ∀ k ∈ l, (lookupKey k regs).isSome = true) :
    ∃ regs1, popEach regs l = .ok regs1 ∧
      ∀ k, lookupKey k regs1 = if k ∈ l then none else lookupKey k regs := by
  induction l generalizing regs with
  | nil => exact ⟨regs, rfl, by simp⟩
  | cons a t ih =>
    have ha := h a (by simp)
    have hnd' := List.nodup_cons.mp hnd
    have hpre : ∀ k ∈ t, (lookupKey k (eraseKey regs a)).isSome = true := by
      intro k hk
      rw [lookup_eraseKey]
      have hka : ¬k = a := fun e => hnd'.1 (e ▸ hk)
      rw [if_neg hka]
      exact h k (by simp [hk])
    obtain ⟨regs1, hrun, hlook⟩ := ih (eraseKey regs a) hnd'.2 hpre
    refine ⟨regs1, by simp [popEach, ha, hrun], ?_⟩
    intro k
    rw [hlook k, lookup_eraseKey]
    by_cases hk1 : k ∈ t
    · simp [hk1]
    · by_cases hk2 : k = a <;> simp [hk1, hk2]

theorem andFoldMasks_ok (disk : Disk) (acc : MaskImg) (l : List Nat)
    (h : ∀ k ∈ l, (lookupKey (MaskName.num k) disk).isSome = true) :
    ∃ m, andFoldMasks disk acc l = .ok m := by
  induction l generalizing acc with
  | nil => exact ⟨acc, rfl⟩
  | cons n t ih =>
    obtain ⟨m2, hm2⟩ := Option.isSome_iff_exists.mp (h n (by simp))
    obtain ⟨m, hm⟩ := ih (logical_and acc m2) fun k hk => h k (by simp [hk])
    exact ⟨m, by simp [andFoldMasks, hm2, hm]⟩

theorem weighted_length (l : List Region) :
    (l.flatMap fun r => List.replicate r.weight r.center).length =
      (l.map Region.weight).sum := by
  induction l with
  | nil => simp
  | cons r t ih => simp [ih]

theorem weighted_sum (l : List Region) (f : ℚ × ℚ → ℚ) :
    ((l.flatMap fun r => List.replicate r.weight r.center).map f).sum =
      (l.map fun r => (r.weight : ℚ) * f r.center).sum := by
  induction l with
  | nil => simp
  | cons r t ih =>
    simp [ih, List.map_replicate, List.sum_replicate, nsmul_eq_mul]

theorem mergedRegion_weight (l : List Region) (r : Region) :
    (mergedRegion l r).weight = ((l ++ [r]).map Region.weight).sum := by
  simp [mergedRegion, Nat.add_comm]

theorem mergedRegion_data (l : List Region) (r : Region) :
    (mergedRegion l r).data = r.data := rfl

theorem mergedRegion_center (l : List Region) (r : Region) :
    (mergedRegion l r).center =
      (((l ++ [r]).map fun s => (s.weight : ℚ) * s.center.1).sum /
          ((((l ++ [r]).map Region.weight).sum : ℕ) : ℚ),
        ((l ++ [r]).map fun s => (s.weight : ℚ) * s.center.2).sum /
          ((((l ++ [r]).map Region.weight).sum : ℕ) : ℚ)) := by
  have hflat :
      (l.flatMap fun s => List.replicate s.weight s.center) ++
          List.replicate r.weight r.center =
        (l ++ [r]).flatMap fun s => List.replicate s.weight s.center := by
    simp
  simp only [mergedRegion, get_center, hflat]
  rw [weighted_length, weighted_sum, weighted_sum]

/-- C6: for every merge whose keys are ≥ 2, duplicate-free, nonzero, all
present in the registry and all with mask files on disk, `combine_masks`
succeeds and returns the *lowest* input key as survivor; every other input
key is removed from the registry; the survivor's new weight is the sum of
all input weights; and its new centre is the weight-proportional average of
the input centres (each centre counted once per unit of its weight). -/
theorem combine_masks_merge (st : MapState) (blankW blankH : Nat) (disk : Disk)
    (mask_list : List Nat)
    (h2 : 2 ≤ mask_list.length) (hnd : mask_list.Nodup) (h0 : 0 ∉ mask_list)
    (hreg : ∀ k ∈ mask_list, (lookupKey k st.regions).isSome = true)
    (hdisk : ∀ k ∈ mask_list, (lookupKey (MaskName.num k) disk).isSome = true) :
    ∃ out, combine_masks st true true blankW blankH disk mask_list = .ok out ∧
      out.retval = some (listMin mask_list) ∧ out.saved = true ∧
      (∀ k ∈ mask_list, k ≠ listMin mask_list →
        lookupKey k out.state.regions = none) ∧
      ∃ r1, lookupKey (listMin mask_list) out.state.regions = some r1 ∧
        r1.weight = (mask_list.map (regionWeight st)).sum ∧
        r1.center.1 = (mask_list.map fun k =>
            (regionWeight st k : ℚ) * (regionCenter st k).1).sum /
          (((mask_list.map (regionWeight st)).sum : ℕ) : ℚ) ∧
        r1.center.2 = (mask_list.map fun k =>
            (regionWeight st k : ℚ) * (regionCenter st k).2).sum /
          (((mask_list.map (regionWeight st)).sum : ℕ) : ℚ) := by
  have hne : mask_list ≠ [] := by
    intro h
    rw [h] at h2
    simp at h2
  obtain ⟨e2, hle, hperm⟩ := lowElim_min mask_list hne
  have hm_mem : listMin mask_list ∈ mask_list :=
    hperm.subset (List.mem_cons_self _ _)
  have hm_ne0 : ¬listMin mask_list = 0 := fun h => h0 (h ▸ hm_mem)
  have hsub : ∀ k ∈ e2, k ∈ mask_list := fun k hk =>
    hperm.subset (List.mem_cons_of_mem _ hk)
  have hnodup2 : (listMin mask_list :: e2).Nodup := hperm.nodup_iff.mpr hnd
  have hm_notin : listMin mask_list ∉ e2 := (List.nodup_cons.mp hnodup2).1
  have he2nd : e2.Nodup := (List.nodup_cons.mp hnodup2).2
  obtain ⟨mm, hfold⟩ :=
    andFoldMasks_ok disk ⟨blankW, blankH, fun _ => true⟩ mask_list hdisk
  have himg : img_combine_masks true true blankW blankH disk mask_list =
      .ok (some (listMin mask_list, e2, mm)) := by
    unfold img_combine_masks
    rw [if_neg (by omega), if_neg (by simp), if_neg (by simp), hfold, hle]
  obtain ⟨lowReg, hlr⟩ := Option.isSome_iff_exists.mp (hreg _ hm_mem)
  have hLA : lookupAll st.regions e2 = some (e2.map (regOf st.regions)) :=
    lookupAll_eq _ _ fun k hk => hreg k (hsub k hk)
  have hupd : ∀ k ∈ e2,
      (lookupKey k (updateKey st.regions (listMin mask_list)
        (mergedRegion (e2.map (regOf st.regions)) lowReg))).isSome = true := by
    intro k hk
    rw [lookup_updateKey]
    have hkm : ¬k = listMin mask_list := fun h => hm_notin (h ▸ hk)
    rw [if_neg hkm]
    exact hreg k (hsub k hk)
  obtain ⟨regs1, hpop, hlook1⟩ :=
    popEach_ok (updateKey st.regions (listMin mask_list)
      (mergedRegion (e2.map (regOf st.regions)) lowReg)) e2 he2nd hupd
  have hcomb : combine_masks st true true blankW blankH disk mask_list =
      .ok ⟨{ st with regions := regs1, region_max := if st.region_max ∈ e2 then maxKey regs1 else st.region_max }, writeEntry disk (MaskName.num (listMin mask_list)) mm, true, some (listMin mask_list)⟩ := by
    simp only [combine_masks, himg, if_neg hm_ne0, hLA, hlr, hpop]
  refine ⟨_, hcomb, rfl, rfl, ?_, ?_⟩
  · intro k hk hkm
    have hk2 : k ∈ e2 := by
      rcases List.mem_cons.mp (hperm.mem_iff.mpr hk) with h | h
      · exact absurd h hkm
      · exact h
    simpa [hk2] using hlook1 k
  · refine ⟨mergedRegion (e2.map (regOf st.regions)) lowReg, ?_, ?_, ?_, ?_⟩
    · rw [show lookupKey (listMin mask_list) regs1 =
          if listMin mask_list ∈ e2 then none
          else lookupKey (listMin mask_list)
            (updateKey st.regions (listMin mask_list)
              (mergedRegion (e2.map (regOf st.regions)) lowReg)) from hlook1 _,
        if_neg hm_notin, lookup_updateKey, if_pos rfl, hlr]
      rfl
    · rw [mergedRegion_weight]
      have hmap : (e2.map (regOf st.regions)) ++ [lowReg] =
          (e2 ++ [listMin mask_list]).map (regOf st.regions) := by
        simp [regOf, hlr]
      rw [hmap, List.map_map]
      have hperm2 : (e2 ++ [listMin mask_list]).Perm mask_list :=
        (List.perm_append_singleton _ _).trans hperm
      have := (hperm2.map (Region.weight ∘ regOf st.regions)).sum_eq
      rw [this]
      rfl
    · rw [mergedRegion_center]
      have hmap : (e2.map (regOf st.regions)) ++ [lowReg] =
          (e2 ++ [listMin mask_list]).map (regOf st.regions) := by
        simp [regOf, hlr]
      rw [hmap]
      simp only [List.map_map]
      have hperm2 : (e2 ++ [listMin mask_list]).Perm mask_list :=
        (List.perm_append_singleton _ _).trans hperm
      rw [(hperm2.map ((fun s : Region => (s.weight : ℚ) * s.center.1) ∘
          regOf st.regions)).sum_eq,
        (hperm2.map (Region.weight ∘ regOf st.regions)).sum_eq]
      rfl
    · rw [mergedRegion_center]
      have hmap : (e2.map (regOf st.regions)) ++ [lowReg] =
          (e2 ++ [listMin mask_list]).map (regOf st.regions) := by
        simp [regOf, hlr]
      rw [hmap]
      simp only [List.map_map]
      have hperm2 : (e2 ++ [listMin mask_list]).Perm mask_list :=
        (List.perm_append_singleton _ _).trans hperm
      rw [(hperm2.map ((fun s : Region => (s.weight : ℚ) * s.center.2) ∘
          regOf st.regions)).sum_eq,
        (hperm2.map (Region.weight ∘ regOf st.regions)).sum_eq]
      rfl

/-- Witness for C6 at the concrete key list `[3, 5, 2]` of the claim. -/
theorem combine_masks_merge_witness :
    ∃ out, combine_masks mergeSt true true 2 2 mergeDisk [3, 5, 2] = .ok out ∧
      out.retval = some (listMin [3, 5, 2]) ∧ out.saved = true ∧
      (∀ k ∈ [3, 5, 2], k ≠ listMin [3, 5, 2] →
        lookupKey k out.state.regions = none) ∧
      ∃ r1, lookupKey (listMin [3, 5, 2]) out.state.regions = some r1 ∧
        r1.weight = ([3, 5, 2].map (regionWeight mergeSt)).sum ∧
        r1.center.1 = ([3, 5, 2].map fun k =>
            (regionWeight mergeSt k : ℚ) * (regionCenter mergeSt k).1).sum /
          ((([3, 5, 2].map (regionWeight mergeSt)).sum : ℕ) : ℚ) ∧
        r1.center.2 = ([3, 5, 2].map fun k =>
            (regionWeight mergeSt k : ℚ) * (regionCenter mergeSt k).2).sum /
          ((([3, 5, 2].map (regionWeight mergeSt)).sum : ℕ) : ℚ) :=
  combine_masks_merge mergeSt 2 2 mergeDisk [3, 5, 2] (by decide) (by decide)
    (by decide) (by decide) (by decide)

theorem popKeys_absent (regs : List (Nat × Region)) (l : List Nat)
    (h : ∃ k ∈ l, lookupKey k regs = none) : (popKeys regs l).2 = false := by
  induction l generalizing regs with
  | nil => simp at h
  | cons a t ih =>
    obtain ⟨k, hk, hnone⟩ := h
    by_cases ha : (lookupKey a regs).isSome = true
    · rcases List.mem_cons.mp hk with rfl | hk2
      · rw [hnone] at ha
        simp at ha
      · have hka : lookupKey k (eraseKey regs a) = none := by
          rw [lookup_eraseKey]
          by_cases hkeq : k = a
          · simp [hkeq]
          · simp [hkeq, hnone]
        simpa [popKeys, ha] using ih (eraseKey regs a) ⟨k, hk2, hka⟩
    · simp [popKeys, ha]

theorem popKeys_not_mem (regs : List (Nat × Region)) (l : List Nat) (k : Nat)
    (h : k ∉ l) : lookupKey k (popKeys regs l).1 = lookupKey k regs := by
  induction l generalizing regs with
  | nil => rfl
  | cons a t ih =>
    have hka : ¬k = a := fun e => h (e ▸ List.mem_cons_self a t)
    by_cases ha : (lookupKey a regs).isSome = true
    · rw [show popKeys regs (a :: t) = popKeys (eraseKey regs a) t by
        simp [popKeys, ha]]
      rw [ih (eraseKey regs a) fun hkt => h (List.mem_cons_of_mem a hkt),
        lookup_eraseKey, if_neg hka]
    · simp [popKeys, ha]

/-- C4 (counterexample): the registry `{1, 2}` with `delete_masks([1, 99])`:
key 99 is absent, so the call fails returning the falsy sentinel without
persisting — but key 1 *has already been popped* from the in-memory registry,
refuting "the registry is left exactly as it was before the call". -/
theorem delete_masks_untouched_cex :
    delete_masks delSt [1, 99] = .ok (delStAfter, false, none) ∧
    lookupKey 1 delSt.regions = some ⟨(0, 0), 1, []⟩ ∧
    lookupKey 99 delSt.regions = none ∧
    lookupKey 1 delStAfter.regions = none :=
  ⟨rfl, rfl, rfl, rfl⟩

/-- C4 (amended): when the key list contains a key absent from the registry,
`delete_masks` fails returning the falsy `False`, does not persist, and leaves
`region_max` and every *unlisted* key untouched — but the listed keys popped
before the first absent one are removed from the in-memory registry. -/
theorem delete_masks_absent (st : MapState) (mask_list : List Nat)
    (h : ∃ k ∈ mask_list, lookupKey k st.regions = none) :
    delete_masks st mask_list =
      .ok ({ st with regions := (popKeys st.regions mask_list).1 }, false, none) ∧
    ({ st with regions := (popKeys st.regions mask_list).1 } : MapState).region_max =
      st.region_max ∧
    ∀ k ∉ mask_list,
      lookupKey k (popKeys st.regions mask_list).1 = lookupKey k st.regions := by
  have hfail : (popKeys st.regions mask_list).2 = false := popKeys_absent _ _ h
  have hsplit : popKeys st.regions mask_list = ((popKeys st.regions mask_list).1, false) := by
    rw [← hfail]
  refine ⟨?_, rfl, fun k hk => popKeys_not_mem st.regions mask_list k hk⟩
  unfold delete_masks
  rw [hsplit]

/-- Witness for the amended C4 theorem at the counterexample's input. -/
theorem delete_masks_absent_witness :
    (∃ k ∈ [1, 99], lookupKey k delSt.regions = none) ∧
    delete_masks delSt [1, 99] =
      .ok ({ delSt with regions := (popKeys delSt.regions [1, 99]).1 }, false, none) :=
  ⟨by decide, (delete_masks_absent delSt [1, 99] (by decide)).1⟩

theorem insertByKey_perm {β : Type} (p : Nat × β) (l : List (Nat × β)) :
    (insertByKey p l).Perm (p :: l) := by
  induction l with
  | nil => exact List.Perm.refl _
  | cons q t ih =>
    by_cases h : p.1 ≤ q.1
    · simp [insertByKey, h]
    · rw [show insertByKey p (q :: t) = q :: insertByKey p t by simp [insertByKey, h]]
      exact (ih.cons q).trans (List.Perm.swap p q t)

theorem sortByKey_perm {β : Type} (l : List (Nat × β)) : (sortByKey l).Perm l := by
  induction l with
  | nil => exact List.Perm.refl _
  | cons p t ih => exact (insertByKey_perm p (sortByKey t)).trans (ih.cons p)

theorem lookup_perm {α β : Type} [DecidableEq α] {l l2 : List (α × β)}
    (h : l.Perm l2) (hnd : (l.map Prod.fst).Nodup) (k : α) :
    lookupKey k l = lookupKey k l2 := by
  induction h with
  | nil => rfl
  | cons p hp ih =>
    by_cases hk : p.1 = k
    · simp [lookupKey, hk]
    · simp only [lookupKey, if_neg hk]
      exact ih (by simpa using (List.nodup_cons.mp (by simpa using hnd)).2)
  | swap x y l =>
    have hxy : y.1 ≠ x.1 := by
      simp only [List.map_cons, List.nodup_cons, List.mem_cons, List.mem_map] at hnd
      exact fun e => hnd.1 (Or.inl e)
    by_cases hy : y.1 = k
    · have hx : ¬x.1 = k := fun e => hxy (hy.trans e.symm)
      simp [lookupKey, hy, hx]
    · by_cases hx : x.1 = k <;> simp [lookupKey, hy, hx]
  | trans h1 h2 ih1 ih2 =>
    rw [ih1 hnd, ih2 (((h1.map Prod.fst).nodup_iff).mp hnd)]

theorem regionOfJson_get_json (r : Region)
    (hd : ∀ p ∈ r.data, p.1 ≠ "center" ∧ p.1 ≠ "weight") :
    regionOfJson r.get_json = some r := by
  unfold regionOfJson Region.get_json
  rw [show lookupKey "center"
        (("center", JVal.jpair r.center.1 r.center.2) ::
          ("weight", JVal.jint r.weight) :: r.data) =
      some (JVal.jpair r.center.1 r.center.2) by simp [lookupKey]]
  rw [show lookupKey "weight"
        (("center", JVal.jpair r.center.1 r.center.2) ::
          ("weight", JVal.jint r.weight) :: r.data) =
      some (JVal.jint r.weight) by simp [lookupKey]]
  have hfilter :
      (("center", JVal.jpair r.center.1 r.center.2) ::
          ("weight", JVal.jint r.weight) :: r.data).filter
        (fun p => decide (p.1 ≠ "center") && decide (p.1 ≠ "weight")) = r.data := by
    rw [List.filter_cons_of_neg (by simp), List.filter_cons_of_neg (by simp)]
    exact List.filter_eq_self.mpr fun p hp => by
      simp [(hd p hp).1, (hd p hp).2]
  have hdata : List.filter
      (fun p => !decide (p.1 = "center") && !decide (p.1 = "weight")) r.data = r.data :=
    List.filter_eq_self.mpr fun p hp => by simp [(hd p hp).1, (hd p hp).2]
  simp [hfilter, Int.natCast_nonneg, hdata]

theorem parseRegions_map (l : List (Nat × Region))
    (hd : ∀ kr ∈ l, ∀ p ∈ kr.2.data, p.1 ≠ "center" ∧ p.1 ≠ "weight") :
    parseRegions (l.map fun p => (p.1, p.2.get_json)) = some l := by
  induction l with
  | nil => rfl
  | cons kr t ih =>
    simp only [List.map_cons, parseRegions,
      regionOfJson_get_json kr.2 (hd kr (List.mem_cons_self kr t)),
      ih fun kr2 hkr2 => hd kr2 (List.mem_cons_of_mem kr hkr2)]

/-- C9: saving a registry and reloading it yields the same `name`, `custom`
flag and `region_max`, and for every key an equivalent `Region` record —
same centre, same weight, and the extra attribute bag preserved verbatim.
(The keys of the attribute bag are never `"center"`/`"weight"`, since Python
`**kwargs` cannot rebind named parameters; registry keys are duplicate-free
because they come from a dict.) -/
theorem save_load_roundtrip (st : MapState)
    (hnd : (st.regions.map Prod.fst).Nodup)
    (hd : ∀ kr ∈ st.regions, ∀ p ∈ kr.2.data, p.1 ≠ "center" ∧ p.1 ≠ "weight") :
    ∃ st1, load_data (save_data st) = some st1 ∧
      st1.name = st.name ∧ st1.custom = st.custom ∧
      st1.region_max = st.region_max ∧
      ∀ k, lookupKey k st1.regions = lookupKey k st.regions := by
  have hperm := sortByKey_perm st.regions
  have hparse := parseRegions_map (sortByKey st.regions)
    fun kr hkr => hd kr (hperm.subset hkr)
  refine ⟨⟨st.name, st.custom, st.region_max, sortByKey st.regions⟩, ?_, rfl, rfl, rfl, ?_⟩
  · unfold load_data save_data
    rw [hparse]
  · intro k
    exact lookup_perm hperm (((hperm.map Prod.fst).nodup_iff).mpr hnd) k

/-- Witness for C9 at the concrete registry `rtSt`. -/
theorem save_load_roundtrip_witness :
    ∃ st1, load_data (save_data rtSt) = some st1 ∧
      st1.name = rtSt.name ∧ st1.custom = rtSt.custom ∧
      st1.region_max = rtSt.region_max ∧
      ∀ k, lookupKey k st1.regions = lookupKey k rtSt.regions :=
  save_load_roundtrip rtSt (by decide) (by decide)

theorem pruneScan_spec (d : Disk) (keys : List Nat)
    (hnum : ∀ e ∈ d, e.1.isNumStem = true) :
    ∃ d1, pruneScan d keys = .ok (d1,
        d.filterMap fun e =>
          match e.1 with
          | MaskName.num n => if n ∈ keys then none else some n
          | MaskName.old _ => none) ∧
      ∀ n, lookupKey (MaskName.num n) d1 =
        if n ∈ keys then lookupKey (MaskName.num n) d else none := by
  induction d with
  | nil => exact ⟨[], rfl, fun n => by simp [lookupKey]⟩
  | cons e t ih =>
    obtain ⟨d1, hrun, hlook⟩ := ih fun e2 he2 => hnum e2 (List.mem_cons_of_mem e he2)
    obtain ⟨n0, m0, rfl⟩ : ∃ n0 m0, e = (MaskName.num n0, m0) := by
      obtain ⟨a, b⟩ := e
      cases a with
      | num n => exact ⟨n, b, rfl⟩
      | old n =>
        exact absurd (hnum (MaskName.old n, b) (List.mem_cons_self _ _))
          (by simp [MaskName.isNumStem])
    by_cases hk : n0 ∈ keys
    · refine ⟨(MaskName.num n0, m0) :: d1, ?_, ?_⟩
      · simp [pruneScan, hrun, hk]
      · intro n
        by_cases hn : n = n0
        · subst hn
          simp [lookupKey, hk]
        · have hne : ¬MaskName.num n0 = MaskName.num n := by
            simp only [MaskName.num.injEq]
            omega
          simp only [lookupKey, hne, if_false, hlook n]
    · refine ⟨d1, ?_, ?_⟩
      · simp [pruneScan, hrun, hk]
      · intro n
        rw [hlook n]
        by_cases hn : n = n0
        · subst hn
          simp [hk]
        · have hne : ¬MaskName.num n0 = MaskName.num n := by
            simp only [MaskName.num.injEq]
            omega
          by_cases hnk : n ∈ keys <;> simp [hnk, lookupKey, hne]

theorem pruneRenames_spec (rest : List (Nat × Region)) :
    ∀ (c : Nat) (d : Disk),
      List.Pairwise (· < ·) (rest.map Prod.fst) →
      (∀ k ∈ rest.map Prod.fst, c ≤ k) →
      (∀ k ∈ rest.map Prod.fst, (lookupKey (MaskName.num k) d).isSome = true) →
      (∀ n, (lookupKey (MaskName.num n) d).isSome = true →
        n < c ∨ n ∈ rest.map Prod.fst) →
      ∃ d2, pruneRenames d c rest = .ok (d2, enumRegions c (rest.map Prod.snd)) ∧
        pruneRenamesChecked d c rest = some d2 ∧
        (∀ i (h : i < rest.length),
          lookupKey (MaskName.num (c + i)) d2 =
            lookupKey (MaskName.num (rest.get ⟨i, h⟩).1) d) ∧
        (∀ n, n < c → lookupKey (MaskName.num n) d2 = lookupKey (MaskName.num n) d) := by
  induction rest with
  | nil =>
    intro c d _ _ _ _
    exact ⟨d, rfl, rfl, fun i h => absurd h (by simp), fun n _ => rfl⟩
  | cons p t ih =>
    intro c d hsort hge hfiles hnames
    obtain ⟨num, r⟩ := p
    rw [List.map_cons] at hsort hge hfiles hnames
    have hsort' : List.Pairwise (· < ·) (t.map Prod.fst) :=
      (List.pairwise_cons.mp hsort).2
    have hgt : ∀ k ∈ t.map Prod.fst, num < k :=
      (List.pairwise_cons.mp hsort).1
    have hcle : c ≤ num := hge num (List.mem_cons_self _ _)
    by_cases hceq : c = num
    · -- skip branch: newnum == num
      subst hceq
      obtain ⟨d2, hrun, hchk, hget, hlow⟩ := ih (c + 1) d hsort'
        (fun k hk => by have := hgt k hk; omega)
        (fun k hk => hfiles k (List.mem_cons_of_mem _ hk))
        (fun n hn => by
          rcases hnames n hn with h | h
          · exact Or.inl (by omega)
          · rcases List.mem_cons.mp h with rfl | h2
            · exact Or.inl (by omega)
            · exact Or.inr h2)
      refine ⟨d2, ?_, ?_, ?_, fun n hn => hlow n (by omega)⟩
      · simp [pruneRenames, hrun, enumRegions]
      · simp [pruneRenamesChecked, hchk]
      · intro i h
        cases i with
        | zero =>
          rw [Nat.add_zero, hlow c (by omega)]
          rfl
        | succ j =>
          have hj : j < t.length := by simpa using h
          rw [show c + (j + 1) = (c + 1) + j by omega, hget j hj]
          rfl
    · -- rename branch: newnum != num, so c < num
      have hclt : c < num := lt_of_le_of_ne hcle hceq
      obtain ⟨m, hm⟩ :=
        Option.isSome_iff_exists.mp (hfiles num (List.mem_cons_self _ _))
      have htgt : ¬(lookupKey (MaskName.num c) d).isSome = true := by
        intro habs
        rcases hnames c habs with h | h
        · omega
        · rcases List.mem_cons.mp h with h2 | h2
          · omega
          · exact absurd (hgt c h2) (by omega)
      have hlook' : ∀ n,
          lookupKey (MaskName.num n)
            (writeEntry (eraseKey d (MaskName.num num)) (MaskName.num c) m) =
          if n = c then some m
          else if n = num then none
          else lookupKey (MaskName.num n) d := by
        intro n
        rw [lookup_writeEntry, lookup_eraseKey]
        by_cases h1 : n = c
        · simp [h1]
        · have h1m : ¬MaskName.num n = MaskName.num c := by
            simp only [MaskName.num.injEq]; omega
          rw [if_neg h1m, if_neg h1]
          by_cases h2 : n = num
          · simp [h2]
          · have h2m : ¬MaskName.num n = MaskName.num num := by
              simp only [MaskName.num.injEq]; omega
            rw [if_neg h2m, if_neg h2]
      obtain ⟨d2, hrun, hchk, hget, hlow⟩ := ih (c + 1)
        (writeEntry (eraseKey d (MaskName.num num)) (MaskName.num c) m) hsort'
        (fun k hk => by have := hgt k hk; omega)
        (fun k hk => by
          have hkgt := hgt k hk
          rw [hlook' k, if_neg (by omega), if_neg (by omega)]
          exact hfiles k (List.mem_cons_of_mem _ hk))
        (fun n hn => by
          rw [hlook' n] at hn
          by_cases h1 : n = c
          · exact Or.inl (by omega)
          · rw [if_neg h1] at hn
            by_cases h2 : n = num
            · rw [if_pos h2] at hn
              simp at hn
            · rw [if_neg h2] at hn
              rcases hnames n hn with h | h
              · exact Or.inl (by omega)
              · rcases List.mem_cons.mp h with h3 | h3
                · exact absurd h3 h2
                · exact Or.inr h3)
      refine ⟨d2, ?_, ?_, ?_, ?_⟩
      · simp only [pruneRenames, if_neg hceq, hm, hrun, enumRegions, List.map_cons]
      · rw [show pruneRenamesChecked d c ((num, r) :: t) =
            pruneRenamesChecked
              (writeEntry (eraseKey d (MaskName.num num)) (MaskName.num c) m)
              (c + 1) t by
          simp [pruneRenamesChecked, if_neg hceq, hm, htgt]]
        exact hchk
      · intro i h
        cases i with
        | zero =>
          rw [Nat.add_zero, hlow c (by omega), hlook' c, if_pos rfl]
          rw [show ((((num, r) :: t).get ⟨0, h⟩).1 : Nat) = num from rfl, hm]
        | succ j =>
          have hj : j < t.length := by simpa using h
          have hkey : ((t.get ⟨j, hj⟩).1 : Nat) ∈ t.map Prod.fst :=
            List.mem_map_of_mem Prod.fst (t.get_mem j hj)
          have hkgt := hgt _ hkey
          rw [show c + (j + 1) = (c + 1) + j by omega, hget j hj,
            hlook' _, if_neg (by omega), if_neg (by omega)]
          rfl
      · intro n hn
        rw [hlow n (by omega), hlook', if_neg (by omega), if_neg (by omega)]

theorem enumRegions_ne_nil {l : List Region} (hl : l ≠ []) (c : Nat) :
    enumRegions c l ≠ [] := by
  cases l with
  | nil => exact absurd rfl hl
  | cons r t => simp [enumRegions]

theorem enumRegions_map_fst (l : List Region) : ∀ c : Nat,
    (enumRegions c l).map Prod.fst = List.range' c l.length := by
  induction l with
  | nil => intro c; rfl
  | cons r t ih =>
    intro c
    simp [enumRegions, List.range'_succ, ih (c + 1)]

theorem foldl_max_range' (n : Nat) : ∀ c a : Nat,
    (List.range' c n).foldl max a = if n = 0 then a else max a (c + n - 1) := by
  induction n with
  | zero => intro c a; rfl
  | succ m ih =>
    intro c a
    rw [List.range'_succ, List.foldl_cons, ih (c + 1) (max a c)]
    by_cases hm : m = 0
    · subst hm
      simp
    · rw [if_neg hm, if_neg (by omega)]
      omega

theorem maxKey_enumRegions (l : List Region) (hl : l ≠ []) :
    maxKey (enumRegions 1 l) = l.length := by
  unfold maxKey
  rw [enumRegions_map_fst l 1, foldl_max_range']
  have : l.length ≠ 0 := fun h => hl (List.length_eq_zero.mp h)
  rw [if_neg this]
  omega

/-- The full run of `prune_masks` on a sorted registry: the workhorse behind
the C5 and C2 results. -/
theorem prune_masks_run (st : MapState) (disk : Disk)
    (hsorted : List.Pairwise (· < ·) (st.regions.map Prod.fst))
    (hne : st.regions ≠ [])
    (hpos : ∀ k ∈ st.regions.map Prod.fst, 1 ≤ k)
    (hnum : ∀ e ∈ disk, e.1.isNumStem = true)
    (hfiles : ∀ k ∈ st.regions.map Prod.fst,
      (lookupKey (MaskName.num k) disk).isSome = true) :
    ∃ d1 d2,
      pruneScan disk (st.regions.map Prod.fst) =
        .ok (d1, disk.filterMap fun e =>
          match e.1 with
          | MaskName.num n => if n ∈ st.regions.map Prod.fst then none else some n
          | MaskName.old _ => none) ∧
      (∀ n, lookupKey (MaskName.num n) d1 =
        if n ∈ st.regions.map Prod.fst then lookupKey (MaskName.num n) disk
        else none) ∧
      prune_masks st disk =
        .ok ({ st with regions := enumRegions 1 (st.regions.map Prod.snd), region_max := maxKey (enumRegions 1 (st.regions.map Prod.snd)) }, d2, true,
          disk.filterMap fun e =>
            match e.1 with
            | MaskName.num n =>
              if n ∈ st.regions.map Prod.fst then none else some n
            | MaskName.old _ => none) ∧
      pruneRenamesChecked d1 1 st.regions = some d2 ∧
      (∀ i (h : i < st.regions.length),
        lookupKey (MaskName.num (1 + i)) d2 =
          lookupKey (MaskName.num (st.regions.get ⟨i, h⟩).1) disk) := by
  obtain ⟨d1, hscan, hlook1⟩ := pruneScan_spec disk (st.regions.map Prod.fst) hnum
  obtain ⟨d2, hren, hchk, hget, -⟩ := pruneRenames_spec st.regions 1 d1 hsorted hpos
    (fun k hk => by rw [hlook1 k, if_pos hk]; exact hfiles k hk)
    (fun n hn => by
      rw [hlook1 n] at hn
      by_cases hmem : n ∈ st.regions.map Prod.fst
      · exact Or.inr hmem
      · rw [if_neg hmem] at hn
        simp at hn)
  have hmain : prune_masks st disk =
      .ok ({ st with regions := enumRegions 1 (st.regions.map Prod.snd), region_max := maxKey (enumRegions 1 (st.regions.map Prod.snd)) }, d2, true,
        disk.filterMap fun e =>
          match e.1 with
          | MaskName.num n =>
            if n ∈ st.regions.map Prod.fst then none else some n
          | MaskName.old _ => none) := by
    unfold prune_masks
    rw [hscan]
    simp only [hren]
    rw [if_neg (enumRegions_ne_nil (fun h => hne (by simpa using h)) 1)]
  refine ⟨d1, d2, hscan, hlook1, hmain, hchk, ?_⟩
  intro i h
  rw [hget i h, hlook1]
  rw [if_pos (List.mem_map_of_mem Prod.fst (st.regions.get_mem i h))]

/-- C5: for every registry stored in increasing key order (the invariant of
all engine-produced registries), nonempty, with positive keys, only numeric
mask-file names on disk, and a mask file for every key, `prune_masks`
succeeds: phase 1 deletes exactly the mask files whose numeric names are not
registry keys and returns their identifiers in directory order; phase 2
renumbers the registry densely to `1..N` in stored (increasing-key) order;
running the same renames through a rename that fails on an existing target
also succeeds (no rename ever overwrites a not-yet-renamed mask file); and
afterwards each surviving region's mask content is what its old key had
before the prune. -/
theorem prune_masks_spec (st : MapState) (disk : Disk)
    (hsorted : List.Pairwise (· < ·) (st.regions.map Prod.fst))
    (hne : st.regions ≠ [])
    (hpos : ∀ k ∈ st.regions.map Prod.fst, 1 ≤ k)
    (hnum : ∀ e ∈ disk, e.1.isNumStem = true)
    (hfiles : ∀ k ∈ st.regions.map Prod.fst,
      (lookupKey (MaskName.num k) disk).isSome = true) :
    ∃ d1 d2,
      pruneScan disk (st.regions.map Prod.fst) =
        .ok (d1, disk.filterMap fun e =>
          match e.1 with
          | MaskName.num n => if n ∈ st.regions.map Prod.fst then none else some n
          | MaskName.old _ => none) ∧
      (∀ n, lookupKey (MaskName.num n) d1 =
        if n ∈ st.regions.map Prod.fst then lookupKey (MaskName.num n) disk
        else none) ∧
      prune_masks st disk =
        .ok ({ st with regions := enumRegions 1 (st.regions.map Prod.snd), region_max := maxKey (enumRegions 1 (st.regions.map Prod.snd)) }, d2, true,
          disk.filterMap fun e =>
            match e.1 with
            | MaskName.num n =>
              if n ∈ st.regions.map Prod.fst then none else some n
            | MaskName.old _ => none) ∧
      pruneRenamesChecked d1 1 st.regions = some d2 ∧
      (∀ i (h : i < st.regions.length),
        lookupKey (MaskName.num (1 + i)) d2 =
          lookupKey (MaskName.num (st.regions.get ⟨i, h⟩).1) disk) :=
  prune_masks_run st disk hsorted hne hpos hnum hfiles

/-- Witness for C5 at the spec's `{1, 2, 3, 4} minus 2` prune example. -/
theorem prune_masks_spec_witness :
    ∃ d1 d2,
      pruneScan pruneDisk (pruneSt.regions.map Prod.fst) =
        .ok (d1, pruneDisk.filterMap fun e =>
          match e.1 with
          | MaskName.num n =>
            if n ∈ pruneSt.regions.map Prod.fst then none else some n
          | MaskName.old _ => none) ∧
      (∀ n, lookupKey (MaskName.num n) d1 =
        if n ∈ pruneSt.regions.map Prod.fst then lookupKey (MaskName.num n) pruneDisk
        else none) ∧
      prune_masks pruneSt pruneDisk =
        .ok ({ pruneSt with regions := enumRegions 1 (pruneSt.regions.map Prod.snd), region_max := maxKey (enumRegions 1 (pruneSt.regions.map Prod.snd)) }, d2, true,
          pruneDisk.filterMap fun e =>
            match e.1 with
            | MaskName.num n =>
              if n ∈ pruneSt.regions.map Prod.fst then none else some n
            | MaskName.old _ => none) ∧
      pruneRenamesChecked d1 1 pruneSt.regions = some d2 ∧
      (∀ i (h : i < pruneSt.regions.length),
        lookupKey (MaskName.num (1 + i)) d2 =
          lookupKey (MaskName.num (pruneSt.regions.get ⟨i, h⟩).1) pruneDisk) :=
  prune_masks_spec pruneSt pruneDisk (by decide) (by decide) (by decide)
    (by decide) (by decide)

theorem chunksAux_join (size : Nat) (hs : 0 < size) : ∀ (fuel : Nat)
    (seq : List α), seq.length ≤ fuel → (chunksAux size fuel seq).flatten = seq := by
  intro fuel
  induction fuel with
  | zero =>
    intro seq hlen
    cases seq with
    | nil => rfl
    | cons a t => simp at hlen
  | succ n ih =>
    intro seq hlen
    cases seq with
    | nil => rfl
    | cons a t =>
      rw [chunksAux]
      simp only [List.flatten_cons]
      rw [ih ((a :: t).drop size) (by
          have h2 := hlen
          simp only [List.length_drop, List.length_cons] at h2 ⊢
          omega),
        List.take_append_drop]

theorem chunks_join (size : Nat) (hs : 0 < size) (seq : List α) :
    (chunks size hs seq).flatten = seq :=
  chunksAux_join size hs seq.length seq (Nat.le_refl _)

/-- C3 (counterexample): a 10×5 base image (height 5 < 10, so
`base_img.height // 10 == 0`): `Regioner.execute` raises `ValueError` out of
`chunker` instead of returning a falsy sentinel. -/
theorem execute_small_image_cex :
    execute true (Grid.mk 10 5 fun _ => 255) 0 none = .error PyErr.valueError ∧
    execute true (Grid.mk 5 12 fun _ => 255) 0 none = .error PyErr.valueError :=
  ⟨rfl, rfl⟩

/-- C3 (amended): the missing-resource paths do return falsy sentinels — a
missing base image makes `execute` return `False` and `generate_masks` pass
that through unchanged without saving — but the engine *can* raise: `execute`
raises `ValueError` whenever the base image's width or height is below 10
(`chunker` is called with chunk size 0); `combine_masks` raises
`FileNotFoundError` when a listed mask file is absent from disk; and
`delete_masks` raises `ValueError` from `max()` when the deletion empties the
registry while `region_max` was among the deleted keys. -/
theorem error_contract_amended (g : Grid) (st : MapState)
    (hsmall : g.height / 10 = 0 ∨ g.width / 10 = 0)
    (hdel : st.regions = [(st.region_max, ⟨(0, 0), 1, []⟩)]) :
    execute false g 0 none = .ok none ∧
    generate_masks false g st = .ok (st, false, none) ∧
    execute true g 0 none = .error PyErr.valueError ∧
    combine_masks st true true g.width g.height [] [1, 2] =
      .error PyErr.fileNotFound ∧
    delete_masks st [st.region_max] = .error PyErr.valueError := by
  refine ⟨rfl, rfl, ?_, ?_, ?_⟩
  · unfold execute chunker
    rcases hsmall with h | h
    · simp [h]
    · by_cases hh : g.height / 10 = 0 <;> simp [hh, h]
  · rfl
  · unfold delete_masks
    rw [hdel]
    simp [popKeys, lookupKey, eraseKey, maxKey]

/-- Witness for the amended C3 theorem at a 10×5 grid and singleton
registry. -/
theorem error_contract_amended_witness :
    ((Grid.mk 10 5 fun _ => 255).height / 10 = 0 ∨
      (Grid.mk 10 5 fun _ => 255).width / 10 = 0) ∧
    execute true (Grid.mk 10 5 fun _ => 255) 0 none = .error PyErr.valueError ∧
    delete_masks
        { name := none, custom := none, region_max := 1,
          regions := [(1, ⟨(0, 0), 1, []⟩)] } [1] = .error PyErr.valueError := by
  refine ⟨Or.inl (by decide), ?_, ?_⟩
  · exact (error_contract_amended (Grid.mk 10 5 fun _ => 255)
      { name := none, custom := none, region_max := 1,
        regions := [(1, ⟨(0, 0), 1, []⟩)] } (Or.inl (by decide)) rfl).2.2.1
  · exact (error_contract_amended (Grid.mk 10 5 fun _ => 255)
      { name := none, custom := none, region_max := 1,
        regions := [(1, ⟨(0, 0), 1, []⟩)] } (Or.inl (by decide)) rfl).2.2.2.2

theorem floodOK_refl (value : Nat) (st : FState) : FloodOK value st st :=
  ⟨fun _ => Or.inl rfl, fun _ h => h, fun _ h => Or.inl h⟩

theorem floodOK_trans {value : Nat} {s1 s2 s3 : FState}
    (h12 : FloodOK value s1 s2) (h23 : FloodOK value s2 s3) :
    FloodOK value s1 s3 := by
  obtain ⟨g12, m12, n12⟩ := h12
  obtain ⟨g23, m23, n23⟩ := h23
  refine ⟨?_, fun d hd => m23 d (m12 d hd), ?_⟩
  · intro d
    rcases g23 d with h | h
    · rw [h]; exact g12 d
    · exact Or.inr h
  · intro d hd
    rcases n23 d hd with h | h
    · rcases n12 d h with h2 | h2
      · exact Or.inl h2
      · refine Or.inr ⟨h2.1, ?_⟩
        rcases g23 d with h3 | h3
        · rw [h3]; exact h2.2
        · exact h3
    · refine Or.inr ⟨?_, h.2⟩
      intro habs
      rcases g12 d with h3 | h3
      · exact h.1 (h3.trans habs)
      · exact h.1 h3

theorem processNeighbor_floodOK (value b thresh bg : Nat) (st : FState)
    (c : Coord) : FloodOK value st (processNeighbor value (some b) thresh bg st c) := by
  unfold processNeighbor
  by_cases hskip : c ∈ st.fullEdge ∨ ¬st.grid.inB c
  · rw [if_pos hskip]; exact floodOK_refl value st
  · rw [if_neg hskip]
    by_cases hfill : fillTest value (some b) thresh bg (st.grid.pix c) = true
    · simp only [hfill, if_true]
      have hne : ¬st.grid.pix c = value := by
        have h2 := hfill
        unfold fillTest at h2
        intro habs
        simp [habs] at h2
      refine ⟨?_, ?_, ?_⟩
      · intro d
        by_cases hd : d = c
        · subst hd; exact Or.inr (by simp [Grid.setPix])
        · exact Or.inl (by simp [Grid.setPix, hd])
      · intro d hd
        simp [hd]
      · intro d hd
        rcases List.mem_append.mp hd with h | h
        · exact Or.inl h
        · rw [List.mem_singleton.mp h]
          exact Or.inr ⟨hne, by simp [Grid.setPix]⟩
    · simp only [Bool.not_eq_true] at hfill
      simp only [hfill, Bool.false_eq_true, if_false]
      exact floodOK_refl value st

theorem foldl_floodOK {value : Nat} {f : FState → Coord → FState}
    (hf : ∀ st c, FloodOK value st (f st c)) :
    ∀ (l : List Coord) (st : FState), FloodOK value st (l.foldl f st) := by
  intro l
  induction l with
  | nil => intro st; exact floodOK_refl value st
  | cons c t ih =>
    intro st
    exact floodOK_trans (hf st c) (ih (f st c))

theorem processPixel_floodOK (value b thresh bg : Nat) (st : FState)
    (c : Coord) : FloodOK value st (processPixel value (some b) thresh bg st c) :=
  foldl_floodOK (processNeighbor_floodOK value b thresh bg) (floodNeighbors c) st

theorem floodLoop_spec (value b thresh bg : Nat) : ∀ (fuel : Nat)
    (g g0 : Grid) (edge prevEdge filled : List Coord),
    (∀ d, g.pix d = g0.pix d ∨ g.pix d = value) →
    (∀ d, d ∈ edge ++ filled → ¬g0.pix d = value ∧ g.pix d = value) →
    (∀ d, (floodLoop value (some b) thresh bg fuel g edge prevEdge filled).1.pix d
        = g0.pix d ∨
      (floodLoop value (some b) thresh bg fuel g edge prevEdge filled).1.pix d
        = value) ∧
    (∀ d ∈ (floodLoop value (some b) thresh bg fuel g edge prevEdge filled).2,
      ¬g0.pix d = value ∧
        (floodLoop value (some b) thresh bg fuel g edge prevEdge filled).1.pix d
          = value) := by
  intro fuel
  induction fuel with
  | zero =>
    intro g g0 edge prevEdge filled hmono hset
    exact ⟨hmono, fun d hd => hset d (List.mem_append.mpr (Or.inr hd))⟩
  | succ n ih =>
    intro g g0 edge prevEdge filled hmono hset
    by_cases hedge : edge.isEmpty
    · simp only [floodLoop, hedge, if_true]
      exact ⟨hmono, fun d hd => hset d (List.mem_append.mpr (Or.inr hd))⟩
    · simp only [floodLoop, hedge, Bool.false_eq_true, if_false]
      have hOK := foldl_floodOK (f := processPixel value (some b) thresh bg)
        (processPixel_floodOK value b thresh bg) edge
        { grid := g, newEdge := [], fullEdge := prevEdge }
      obtain ⟨hg, -, hnew⟩ := hOK
      apply ih
      · intro d
        rcases hg d with h | h
        · rw [h]; exact hmono d
        · exact Or.inr h
      · intro d hd
        rcases List.mem_append.mp hd with h | h
        · rcases hnew d h with h2 | h2
          · exact absurd h2 (List.not_mem_nil d)
          · refine ⟨?_, h2.2⟩
            intro habs
            rcases hmono d with h3 | h3
            · exact h2.1 (h3.trans habs)
            · exact h2.1 h3
        · have hmem2 : d ∈ edge ++ filled := by
            rcases List.mem_append.mp h with h3 | h3
            · exact List.mem_append.mpr (Or.inr h3)
            · exact List.mem_append.mpr (Or.inl h3)
          have h2 := hset d hmem2
          refine ⟨h2.1, ?_⟩
          rcases hg d with h3 | h3
          · rw [h3]; exact h2.2
          · exact h3

theorem floodfill_spec (fuel : Nat) (g : Grid) (xy : Coord) (value b thresh : Nat) :
    (∀ d, (floodfill fuel g xy value (some b) thresh).1.pix d = g.pix d ∨
      (floodfill fuel g xy value (some b) thresh).1.pix d = value) ∧
    (∀ d ∈ (floodfill fuel g xy value (some b) thresh).2,
      ¬g.pix d = value ∧
        (floodfill fuel g xy value (some b) thresh).1.pix d = value) := by
  unfold floodfill
  by_cases hin : g.inB xy
  · rw [if_pos hin]
    by_cases hdiff : color_diff value (g.pix xy) ≤ thresh
    · rw [if_pos hdiff]
      exact ⟨fun d => Or.inl rfl, fun d hd => absurd hd (List.not_mem_nil d)⟩
    · rw [if_neg hdiff]
      apply floodLoop_spec
      · intro d
        by_cases hd : d = xy
        · subst hd; exact Or.inr (by simp [Grid.setPix])
        · exact Or.inl (by simp [Grid.setPix, hd])
      · intro d hd
        rw [List.append_nil] at hd
        rw [List.mem_singleton.mp hd]
        refine ⟨?_, by simp [Grid.setPix]⟩
        intro habs
        apply hdiff
        rw [habs]
        have hz : color_diff value value = 0 := color_diff_eq_zero.mpr rfl
        omega
  · rw [if_neg hin]
    exact ⟨fun d => Or.inl rfl, fun d hd => absurd hd (List.not_mem_nil d)⟩

theorem scanStep_inv (wall : Nat) (rc : Option Nat) (fuel : Nat)
    (st : ScanState) (c : Coord) (h : ScanInv wall st) :
    ScanInv wall (scanStep wall rc fuel st c) := by
  obtain ⟨hpair, hwall⟩ := h
  unfold scanStep
  by_cases hproc : c ∈ st.already_processed
  · rw [if_pos hproc]; exact ⟨hpair, hwall⟩
  · rw [if_neg hproc]
    by_cases hseed : seedCond rc wall (st.grid.pix c) = true
    · simp only [hseed, if_true]
      have hspec := floodfill_spec fuel st.grid c wall wall 0
      by_cases hemp : (floodfill fuel st.grid c wall (some wall) 0).2.isEmpty
      · simp only [hemp, if_true]
        refine ⟨hpair, fun mk hmk p hp => ?_⟩
        rcases hspec.1 p with h2 | h2
        · rw [h2]; exact hwall mk hmk p hp
        · exact h2
      · simp only [hemp, Bool.false_eq_true, if_false]
        constructor
        · rw [List.pairwise_append]
          refine ⟨hpair, List.pairwise_singleton _ _, ?_⟩
          intro a ha mb hmb p hp
          rw [List.mem_singleton.mp hmb]
          simp only [decide_eq_false_iff_not, Decidable.not_not]
          intro hmem
          exact (hspec.2 p hmem).1 (hwall a ha p hp)
        · intro mk hmk p hp
          rcases List.mem_append.mp hmk with h2 | h2
          · rcases hspec.1 p with h3 | h3
            · rw [h3]; exact hwall mk h2 p hp
            · exact h3
          · rw [List.mem_singleton.mp h2] at hp
            simp only [decide_eq_false_iff_not, Decidable.not_not] at hp
            exact (hspec.2 p hp).2
    · simp only [hseed, Bool.false_eq_true, if_false]
      exact ⟨hpair, hwall⟩

theorem scanFold_inv (wall : Nat) (rc : Option Nat) (fuel : Nat) :
    ∀ (l : List Coord) (st : ScanState), ScanInv wall st →
      ScanInv wall (l.foldl (scanStep wall rc fuel) st) := by
  intro l
  induction l with
  | nil => intro st h; exact h
  | cons c t ih =>
    intro st h
    exact ih _ (scanStep_inv wall rc fuel st c h)

/-- C7: the region masks produced by one `Regioner.execute()` run are
pairwise disjoint at the membership (filled = 0) level: no pixel belongs to
two different masks, because each flood fill writes the wall colour into the
pixels it claims and later fills (value = border = wall) never cross pixels
holding the wall value. -/
theorem execute_masks_disjoint (baseExists : Bool) (g : Grid) (wall : Nat)
    (rc : Option Nat) (masks : List (Nat × MaskImg))
    (regions : List (Nat × Region))
    (h : execute baseExists g wall rc = .ok (some (masks, regions))) :
    List.Pairwise (fun a b : Nat × MaskImg =>
      ∀ p : Coord, a.2.pix p = false → ¬b.2.pix p = false) masks := by
  unfold execute at h
  by_cases hbe : baseExists = false
  · rw [if_pos hbe] at h
    exact absurd h (by simp)
  · rw [if_neg hbe] at h
    cases hy : chunker (List.range g.height) (g.height / 10) with
    | error e => rw [hy] at h; exact absurd h (by simp)
    | ok ychunks =>
      rw [hy] at h
      cases hx : chunker (List.range g.width) (g.width / 10) with
      | error e => rw [hx] at h; exact absurd h (by simp)
      | ok xchunks =>
        rw [hx] at h
        simp only [Except.ok.injEq, Option.some.injEq, Prod.mk.injEq] at h
        have hinv := scanFold_inv wall rc (g.width * g.height + 1)
          (ychunks.flatten.flatMap fun y =>
            xchunks.flatten.map fun x => ((x : Int), (y : Int)))
          ⟨g, [], 0, [], []⟩ ⟨List.Pairwise.nil, by simp⟩
        have hp := hinv.1
        rw [h.1] at hp
        exact hp

set_option maxRecDepth 4000 in
/-- Witness for C7: a 10×10 all-wall image (every pixel equals the wall
colour): `execute` succeeds with no regions and the empty mask list is
trivially pairwise disjoint. -/
theorem execute_masks_disjoint_witness :
    execute true (Grid.mk 10 10 fun _ => 0) 0 none = .ok (some ([], [])) ∧
    List.Pairwise (fun a b : Nat × MaskImg =>
      ∀ p : Coord, a.2.pix p = false → ¬b.2.pix p = false)
      ([] : List (Nat × MaskImg)) :=
  ⟨rfl, execute_masks_disjoint true (Grid.mk 10 10 fun _ => 0) 0 none [] [] rfl⟩

/-- C2 (counterexample): `sort_regions` renumbers the registry `{2, 5}` to
`{1, 2}` but leaves `region_max = 5`, so immediately after this mutation —
which changes the maximum key from 5 to 2 — `region_max` is *not* the
maximum key present. -/
theorem region_max_sort_cex :
    (match sort_regions sortCexSt sortCexDisk true with
      | .ok (st1, _, _) =>
        some (st1.region_max, st1.regions.map Prod.fst, maxKey st1.regions)
      | _ => none) = some (5, [1, 2], 2) ∧ (5 : Nat) ≠ 2 :=
  ⟨by decide, by decide⟩

theorem range'_concat_one : ∀ (m s : Nat),
    List.range' s (m + 1) = List.range' s m ++ [s + m] := by
  intro m
  induction m with
  | zero => intro s; rfl
  | succ k ih =>
    intro s
    rw [List.range'_succ, ih (s + 1), List.range'_succ]
    have hx : s + 1 + k = s + (k + 1) := by omega
    rw [hx]
    simp [List.cons_append]

theorem range'_one_concat (n : Nat) :
    List.range' 1 (n + 1) = List.range' 1 n ++ [n + 1] := by
  rw [range'_concat_one n 1, Nat.add_comm 1 n]

theorem scanStep_keys (wall : Nat) (rc : Option Nat) (fuel : Nat)
    (st : ScanState) (c : Coord)
    (h : st.regions.map Prod.fst = List.range' 1 st.mask_count ∧
      st.regions.length = st.mask_count) :
    (scanStep wall rc fuel st c).regions.map Prod.fst =
        List.range' 1 (scanStep wall rc fuel st c).mask_count ∧
      (scanStep wall rc fuel st c).regions.length =
        (scanStep wall rc fuel st c).mask_count := by
  unfold scanStep
  by_cases hproc : c ∈ st.already_processed
  · rw [if_pos hproc]; exact h
  · rw [if_neg hproc]
    by_cases hseed : seedCond rc wall (st.grid.pix c) = true
    · simp only [hseed, if_true]
      by_cases hemp : (floodfill fuel st.grid c wall (some wall) 0).2.isEmpty
      · simp only [hemp, if_true]; exact h
      · simp only [hemp, Bool.false_eq_true, if_false]
        constructor
        · simp only [List.map_append, List.map_cons, List.map_nil, h.1]
          exact (range'_one_concat st.mask_count).symm
        · simp [h.2]
    · simp only [hseed, Bool.false_eq_true, if_false]
      exact h

theorem scanFold_keys (wall : Nat) (rc : Option Nat) (fuel : Nat) :
    ∀ (l : List Coord) (st : ScanState),
      (st.regions.map Prod.fst = List.range' 1 st.mask_count ∧
        st.regions.length = st.mask_count) →
      ((l.foldl (scanStep wall rc fuel) st).regions.map Prod.fst =
          List.range' 1 (l.foldl (scanStep wall rc fuel) st).mask_count ∧
        (l.foldl (scanStep wall rc fuel) st).regions.length =
          (l.foldl (scanStep wall rc fuel) st).mask_count) := by
  intro l
  induction l with
  | nil => intro st h; exact h
  | cons c t ih =>
    intro st h
    exact ih _ (scanStep_keys wall rc fuel st c h)

/-- The keys a successful `execute` run assigns are exactly `1..N`. -/
theorem execute_keys (baseExists : Bool) (g : Grid) (wall : Nat)
    (rc : Option Nat) (masks : List (Nat × MaskImg))
    (regions : List (Nat × Region))
    (h : execute baseExists g wall rc = .ok (some (masks, regions))) :
    regions.map Prod.fst = List.range' 1 regions.length := by
  unfold execute at h
  by_cases hbe : baseExists = false
  · rw [if_pos hbe] at h; exact absurd h (by simp)
  · rw [if_neg hbe] at h
    cases hy : chunker (List.range g.height) (g.height / 10) with
    | error e => rw [hy] at h; exact absurd h (by simp)
    | ok ychunks =>
      rw [hy] at h
      cases hx : chunker (List.range g.width) (g.width / 10) with
      | error e => rw [hx] at h; exact absurd h (by simp)
      | ok xchunks =>
        rw [hx] at h
        simp only [Except.ok.injEq, Option.some.injEq, Prod.mk.injEq] at h
        have hkeys := scanFold_keys wall rc (g.width * g.height + 1)
          (ychunks.flatten.flatMap fun y =>
            xchunks.flatten.map fun x => ((x : Int), (y : Int)))
          ⟨g, [], 0, [], []⟩ ⟨rfl, rfl⟩
        rw [h.2] at hkeys
        rw [hkeys.1, hkeys.2]

/-- C2 (amended): how each mutation actually maintains `region_max`:
`generate_masks` on a successful nonempty segmentation sets
`region_max = len(regions) + 1`, one **more** than the maximum key (the keys
are `1..N`); `delete_masks` recomputes `region_max = max(keys)` only when the
old `region_max` *value* is among the deleted keys and leaves it unchanged
otherwise; `prune_masks` always sets `region_max` to the new maximum key
(= N after dense renumbering); and `sort_regions` leaves `region_max`
unchanged even though it renumbers every key to `1..N`.  (`combine_masks`
behaves like `delete_masks`: it recomputes the maximum only when the old
`region_max` value was eliminated — see its definition above.) -/
theorem region_max_maintenance :
    (∀ (g : Grid) (st : MapState) (masks : List (Nat × MaskImg))
        (regions : List (Nat × Region)),
      execute true g 0 none = .ok (some (masks, regions)) → regions ≠ [] →
      generate_masks true g st =
        .ok ({ st with regions := regions, region_max := regions.length + 1 },
          true, some regions) ∧
      maxKey regions = regions.length) ∧
    (∀ (st : MapState) (mask_list : List Nat),
      (popKeys st.regions mask_list).2 = true →
      (st.region_max ∈ mask_list → ¬(popKeys st.regions mask_list).1 = [] →
        delete_masks st mask_list =
          .ok ({ st with regions := (popKeys st.regions mask_list).1, region_max := maxKey (popKeys st.regions mask_list).1 }, true, some mask_list)) ∧
      (st.region_max ∉ mask_list →
        delete_masks st mask_list =
          .ok ({ st with regions := (popKeys st.regions mask_list).1 }, true,
            some mask_list))) ∧
    (∀ (st : MapState) (disk : Disk),
      List.Pairwise (· < ·) (st.regions.map Prod.fst) → st.regions ≠ [] →
      (∀ k ∈ st.regions.map Prod.fst, 1 ≤ k) →
      (∀ e ∈ disk, e.1.isNumStem = true) →
      (∀ k ∈ st.regions.map Prod.fst,
        (lookupKey (MaskName.num k) disk).isSome = true) →
      ∃ st1 d2 pruned, prune_masks st disk = .ok (st1, d2, true, pruned) ∧
        st1.region_max = maxKey st1.regions ∧
        st1.region_max = st.regions.length) ∧
    (∀ (st : MapState) (disk : Disk) (fs : Bool) (st1 : MapState) (d2 : Disk)
        (sv : Bool),
      sort_regions st disk fs = .ok (st1, d2, sv) →
      st1.region_max = st.region_max) := by
  refine ⟨?_, ?_, ?_, ?_⟩
  · intro g st masks regions hexec hne
    have hkeys := execute_keys true g 0 none masks regions hexec
    constructor
    · have hni : regions.isEmpty = false := by
        cases regions with
        | nil => exact absurd rfl hne
        | cons a t => rfl
      simp only [generate_masks, hexec, hni, Bool.false_eq_true, if_false]
    · unfold maxKey
      rw [hkeys, foldl_max_range']
      have hlen : regions.length ≠ 0 := fun hh => hne (List.length_eq_zero.mp hh)
      rw [if_neg hlen]
      omega
  · intro st mask_list hpop
    have hsplit : popKeys st.regions mask_list =
        ((popKeys st.regions mask_list).1, true) := by
      rw [← hpop]
    constructor
    · intro hmem hne
      unfold delete_masks
      rw [hsplit]
      simp only [if_pos hmem, if_neg hne]
    · intro hmem
      unfold delete_masks
      rw [hsplit]
      simp only [if_neg hmem]
  · intro st disk hsorted hne hpos hnum hfiles
    obtain ⟨d1, d2, -, -, hmain, -, -⟩ :=
      prune_masks_run st disk hsorted hne hpos hnum hfiles
    refine ⟨_, d2, _, hmain, rfl, ?_⟩
    show maxKey (enumRegions 1 (st.regions.map Prod.snd)) = st.regions.length
    rw [maxKey_enumRegions _ (fun hh => hne (by simpa using hh))]
    simp
  · intro st disk fs st1 d2 sv h
    unfold sort_regions at h
    by_cases hfs : fs = false
    · rw [if_pos hfs] at h; exact absurd h (by simp)
    · rw [if_neg hfs] at h
      cases h1 : buildReps disk st.regions with
      | error e => rw [h1] at h; exact absurd h (by simp)
      | ok reps =>
        simp only [h1] at h
        cases h2 : renameToOld disk (st.regions.map Prod.fst) with
        | error e => simp [h2] at h
        | ok disk1 =>
          simp only [h2] at h
          cases h3 : renameFromOld st.regions disk1 1
              ((sortLe (fun a b => decide (a.1.2 ≤ b.1.2)) reps).map Prod.snd) with
          | error e => simp [h3] at h
          | ok pr =>
            simp only [h3] at h
            obtain ⟨dd, nr⟩ := pr
            simp only [Except.ok.injEq, Prod.mk.injEq] at h
            rw [← h.1]

set_option maxRecDepth 4000 in
/-- Witness for the amended C2 theorem: each conjunct instantiated at a
concrete input. -/
theorem region_max_maintenance_witness :
    (generate_masks true gOneSeed delSt =
        .ok ({ delSt with regions := genRegions, region_max := genRegions.length + 1 }, true, some genRegions) ∧
      maxKey genRegions = genRegions.length) ∧
    delete_masks delSt [2] =
      .ok ({ delSt with regions := (popKeys delSt.regions [2]).1, region_max := maxKey (popKeys delSt.regions [2]).1 }, true, some [2]) ∧
    (∃ st1 d2 pruned, prune_masks pruneSt pruneDisk = .ok (st1, d2, true, pruned) ∧
      st1.region_max = maxKey st1.regions ∧
      st1.region_max = pruneSt.regions.length) ∧
    sortCexOutSt.region_max = sortCexSt.region_max := by
  refine ⟨?_, ?_, ?_, ?_⟩
  · exact region_max_maintenance.1 gOneSeed delSt genMasks genRegions rfl (by decide)
  · exact (region_max_maintenance.2.1 delSt [2] (by decide)).1 (by decide) (by decide)
  · exact region_max_maintenance.2.2.1 pruneSt pruneDisk (by decide) (by decide)
      (by decide) (by decide) (by decide)
  · exact region_max_maintenance.2.2.2 sortCexSt sortCexDisk true sortCexOutSt
      sortCexOutDisk true rfl

theorem insertLe_perm {α : Type} (le : α → α → Bool) (a : α) (l : List α) :
    (insertLe le a l).Perm (a :: l) := by
  induction l with
  | nil => exact List.Perm.refl _
  | cons b t ih =>
    by_cases h : le a b = true
    · simp [insertLe, h]
    · rw [show insertLe le a (b :: t) = b :: insertLe le a t by simp [insertLe, h]]
      exact (ih.cons b).trans (List.Perm.swap a b t)

theorem sortLe_perm {α : Type} (le : α → α → Bool) (l : List α) :
    (sortLe le l).Perm l := by
  induction l with
  | nil => exact List.Perm.refl _
  | cons a t ih => exact (insertLe_perm le a (sortLe le t)).trans (ih.cons a)

theorem insertLe_pairwise {α : Type} (le : α → α → Bool)
    (htot : ∀ a b, le a b = true ∨ le b a = true)
    (htrans : ∀ a b c, le a b = true → le b c = true → le a c = true)
    (a : α) (l : List α) (hl : List.Pairwise (fun x y => le x y = true) l) :
    List.Pairwise (fun x y => le x y = true) (insertLe le a l) := by
  induction l with
  | nil => simp [insertLe]
  | cons b t ih =>
    obtain ⟨hb, ht⟩ := List.pairwise_cons.mp hl
    by_cases hab : le a b = true
    · rw [show insertLe le a (b :: t) = a :: b :: t by simp [insertLe, hab]]
      refine List.pairwise_cons.mpr ⟨?_, hl⟩
      intro x hx
      rcases List.mem_cons.mp hx with rfl | hxt
      · exact hab
      · exact htrans a b x hab (hb x hxt)
    · rw [show insertLe le a (b :: t) = b :: insertLe le a t by simp [insertLe, hab]]
      have hba := (htot a b).resolve_left hab
      refine List.pairwise_cons.mpr ⟨?_, ih ht⟩
      intro x hx
      rcases List.mem_cons.mp ((insertLe_perm le a t).mem_iff.mp hx) with rfl | hxt
      · exact hba
      · exact hb x hxt

theorem sortLe_pairwise {α : Type} (le : α → α → Bool)
    (htot : ∀ a b, le a b = true ∨ le b a = true)
    (htrans : ∀ a b c, le a b = true → le b c = true → le a c = true)
    (l : List α) :
    List.Pairwise (fun x y => le x y = true) (sortLe le l) := by
  induction l with
  | nil => exact List.Pairwise.nil
  | cons a t ih => exact insertLe_pairwise le htot htrans a (sortLe le t) ih

theorem sortLe_head_min {α : Type} (le : α → α → Bool)
    (htot : ∀ a b, le a b = true ∨ le b a = true)
    (htrans : ∀ a b c, le a b = true → le b c = true → le a c = true)
    (l : List α) (p : α) (rest : List α) (h : sortLe le l = p :: rest) :
    p ∈ l ∧ ∀ q ∈ l, le p q = true := by
  have hperm := sortLe_perm le l
  rw [h] at hperm
  constructor
  · exact hperm.subset (List.mem_cons_self _ _)
  · intro q hq
    rcases List.mem_cons.mp (hperm.mem_iff.mpr hq) with rfl | hqr
    · exact (htot q q).elim id id
    · have hp := sortLe_pairwise le htot htrans l
      rw [h] at hp
      exact (List.pairwise_cons.mp hp).1 q hqr

theorem buildReps_spec (disk : Disk) :
    ∀ regs : List (Nat × Region),
      (∀ k ∈ regs.map Prod.fst, hasNonemptyMask disk k = true) →
      ∃ reps, buildReps disk regs = .ok reps ∧
        reps.map Prod.snd = regs.map Prod.fst ∧
        ∀ pr ∈ reps, ∃ m, lookupKey (MaskName.num pr.2) disk = some m ∧
          pr.1 ∈ maskPoints m ∧ ∀ q ∈ maskPoints m, pr.1.2 ≤ q.2 := by
  intro regs
  induction regs with
  | nil => intro _; exact ⟨[], rfl, rfl, fun pr hpr => absurd hpr (List.not_mem_nil pr)⟩
  | cons p t ih =>
    intro hmask
    obtain ⟨num, r⟩ := p
    have hm := hmask num (by simp)
    cases hl : lookupKey (MaskName.num num) disk with
    | none => simp [hasNonemptyMask, hl] at hm
    | some m =>
      have hne : maskPoints m ≠ [] := by
        intro habs
        simp [hasNonemptyMask, hl, habs] at hm
      cases hsort : sortLe (fun a b => decide (a.2 ≤ b.2)) (maskPoints m) with
      | nil =>
        exfalso
        have hp := sortLe_perm (fun a b => decide (a.2 ≤ b.2)) (maskPoints m)
        rw [hsort] at hp
        exact hne (List.length_eq_zero.mp (by simpa using hp.length_eq.symm))
      | cons p0 rest =>
        obtain ⟨reps, hrun, hkeys, hmin⟩ := ih fun k hk => hmask k (by simp [hk])
        refine ⟨(p0, num) :: reps, ?_, by simp [hkeys], ?_⟩
        · simp only [buildReps, get_points_from_mask, hl, hsort, hrun]
        · intro pr hpr
          rcases List.mem_cons.mp hpr with rfl | hpr2
          · have hmin0 := sortLe_head_min (fun a b => decide (a.2 ≤ b.2))
              (fun a b => by
                by_cases h : a.2 ≤ b.2
                · exact Or.inl (by simpa using h)
                · exact Or.inr (by simp; omega))
              (fun a b c hab hbc => by
                simp only [decide_eq_true_eq] at hab hbc ⊢
                omega)
              (maskPoints m) p0 rest hsort
            exact ⟨m, hl, hmin0.1, fun q hq => by
              have := hmin0.2 q hq
              simpa using this⟩
          · exact hmin pr hpr2

theorem renameToOld_spec : ∀ (ks : List Nat) (d : Disk), ks.Nodup →
    (∀ k ∈ ks, (lookupKey (MaskName.num k) d).isSome = true) →
    ∃ d1, renameToOld d ks = .ok d1 ∧
      (∀ n, lookupKey (MaskName.num n) d1 =
        if n ∈ ks then none else lookupKey (MaskName.num n) d) ∧
      (∀ n, lookupKey (MaskName.old n) d1 =
        if n ∈ ks then lookupKey (MaskName.num n) d
        else lookupKey (MaskName.old n) d) := by
  intro ks
  induction ks with
  | nil => intro d _ _; exact ⟨d, rfl, fun n => by simp, fun n => by simp⟩
  | cons k t ih =>
    intro d hnd hf
    obtain ⟨m, hm⟩ := Option.isSome_iff_exists.mp (hf k (by simp))
    have hnd' := List.nodup_cons.mp hnd
    have hlook : ∀ n, lookupKey (MaskName.num n)
        (writeEntry (eraseKey d (MaskName.num k)) (MaskName.old k) m) =
        if n = k then none else lookupKey (MaskName.num n) d := by
      intro n
      rw [lookup_writeEntry, if_neg (by simp), lookup_eraseKey]
      by_cases h : n = k
      · simp [h]
      · rw [if_neg (by simp [h]), if_neg h]
    have hlooko : ∀ n, lookupKey (MaskName.old n)
        (writeEntry (eraseKey d (MaskName.num k)) (MaskName.old k) m) =
        if n = k then some m else lookupKey (MaskName.old n) d := by
      intro n
      rw [lookup_writeEntry, lookup_eraseKey]
      by_cases h : n = k
      · simp [h]
      · rw [if_neg (by simp [h]), if_neg (by simp), if_neg h]
    obtain ⟨d1, hrun, hnum, hold⟩ := ih
      (writeEntry (eraseKey d (MaskName.num k)) (MaskName.old k) m) hnd'.2
      (fun k2 hk2 => by
        rw [hlook k2, if_neg (show ¬k2 = k from fun e => hnd'.1 (e ▸ hk2))]
        exact hf k2 (by simp [hk2]))
    refine ⟨d1, by simp [renameToOld, hm, hrun], ?_, ?_⟩
    · intro n
      rw [hnum n, hlook n]
      by_cases h1 : n ∈ t
      · simp [h1]
      · by_cases h2 : n = k <;> simp [h1, h2]
    · intro n
      rw [hold n, hlook n, hlooko n]
      by_cases h1 : n ∈ t
      · have hnk : ¬n = k := fun e => hnd'.1 (e ▸ h1)
        simp [h1, hnk]
      · by_cases h2 : n = k
        · subst h2
          simp [h1, hnd'.1, hm]
        · simp [h1, h2]

theorem renameFromOld_spec (regs : List (Nat × Region)) :
    ∀ (olds : List Nat) (c : Nat) (d : Disk), olds.Nodup →
      (∀ o ∈ olds, (lookupKey (MaskName.old o) d).isSome = true) →
      (∀ o ∈ olds, (lookupKey o regs).isSome = true) →
      ∃ d2, renameFromOld regs d c olds =
          .ok (d2, enumRegions c (olds.map (regOf regs))) ∧
        (∀ i (h : i < olds.length),
          lookupKey (MaskName.num (c + i)) d2 =
            lookupKey (MaskName.old (olds.get ⟨i, h⟩)) d) ∧
        (∀ n, n < c → lookupKey (MaskName.num n) d2 =
          lookupKey (MaskName.num n) d) := by
  intro olds
  induction olds with
  | nil =>
    intro c d _ _ _
    exact ⟨d, rfl, fun i h => absurd h (by simp), fun n _ => rfl⟩
  | cons o t ih =>
    intro c d hnd hfo hfr
    obtain ⟨m, hm⟩ := Option.isSome_iff_exists.mp (hfo o (by simp))
    obtain ⟨r, hr⟩ := Option.isSome_iff_exists.mp (hfr o (by simp))
    have hnd' := List.nodup_cons.mp hnd
    have hlookn : ∀ n, lookupKey (MaskName.num n)
        (writeEntry (eraseKey d (MaskName.old o)) (MaskName.num c) m) =
        if n = c then some m else lookupKey (MaskName.num n) d := by
      intro n
      rw [lookup_writeEntry, lookup_eraseKey]
      by_cases h : n = c
      · simp [h]
      · rw [if_neg (by simp [h]), if_neg (by simp), if_neg h]
    have hlooko : ∀ n, lookupKey (MaskName.old n)
        (writeEntry (eraseKey d (MaskName.old o)) (MaskName.num c) m) =
        if n = o then none else lookupKey (MaskName.old n) d := by
      intro n
      rw [lookup_writeEntry, if_neg (by simp), lookup_eraseKey]
      by_cases h : n = o
      · simp [h]
      · rw [if_neg (by simp [h]), if_neg h]
    obtain ⟨d2, hrun, hget, hlow⟩ := ih (c + 1)
      (writeEntry (eraseKey d (MaskName.old o)) (MaskName.num c) m) hnd'.2
      (fun o2 ho2 => by
        rw [hlooko o2, if_neg (show ¬o2 = o from fun e => hnd'.1 (e ▸ ho2))]
        exact hfo o2 (by simp [ho2]))
      (fun o2 ho2 => hfr o2 (by simp [ho2]))
    refine ⟨d2, ?_, ?_, ?_⟩
    · simp only [renameFromOld, hm, hr, hrun, List.map_cons, enumRegions]
      rw [show regOf regs o = r by rw [regOf, hr]; rfl]
    · intro i h
      cases i with
      | zero =>
        rw [Nat.add_zero, hlow c (by omega), hlookn c, if_pos rfl]
        rw [show ((o :: t).get ⟨0, h⟩ : Nat) = o from rfl, hm]
      | succ j =>
        have hj : j < t.length := by simpa using h
        rw [show c + (j + 1) = (c + 1) + j by omega, hget j hj, hlooko]
        rw [if_neg (show ¬(t.get ⟨j, hj⟩ : Nat) = o from
          fun e => hnd'.1 (e ▸ t.get_mem j hj))]
        rfl
    · intro n hn
      rw [hlow n (by omega), hlookn n, if_neg (by omega)]

theorem lookup_isSome_of_mem_keys {β : Type} (l : List (Nat × β)) (k : Nat)
    (h : k ∈ l.map Prod.fst) : (lookupKey k l).isSome = true := by
  induction l with
  | nil => simp at h
  | cons p t ih =>
    rw [List.map_cons] at h
    rcases List.mem_cons.mp h with rfl | h2
    · simp [lookupKey]
    · by_cases hp : p.1 = k
      · simp [lookupKey, hp]
      · simp only [lookupKey, hp, if_false]
        exact ih h2

/-- C8: `sort_regions(fast_sort=True)` on a registry whose keys all have
nonempty mask files: each region's representative is a topmost (minimal-y)
pixel of its own mask; the run succeeds, renumbering the regions `1..N` in
the order of the stably-y-sorted representatives (ascending topmost y); and
through the two rename passes the mask file stored under each new key `1+i`
is exactly the mask file the i-th sorted region owned under its old key. -/
theorem sort_regions_fast (st : MapState) (disk : Disk)
    (hnd : (st.regions.map Prod.fst).Nodup)
    (hmask : ∀ k ∈ st.regions.map Prod.fst, hasNonemptyMask disk k = true) :
    ∃ reps d2,
      buildReps disk st.regions = .ok reps ∧
      reps.map Prod.snd = st.regions.map Prod.fst ∧
      (∀ pr ∈ reps, ∃ m, lookupKey (MaskName.num pr.2) disk = some m ∧
        pr.1 ∈ maskPoints m ∧ ∀ q ∈ maskPoints m, pr.1.2 ≤ q.2) ∧
      sort_regions st disk true =
        .ok ({ st with regions := enumRegions 1 ((((sortLe (fun a b => decide (a.1.2 ≤ b.1.2)) reps).map Prod.snd)).map (regOf st.regions)) }, d2, true) ∧
      List.Pairwise (fun a b : Coord × Nat => a.1.2 ≤ b.1.2)
        (sortLe (fun a b => decide (a.1.2 ≤ b.1.2)) reps) ∧
      (sortLe (fun a b => decide (a.1.2 ≤ b.1.2)) reps).Perm reps ∧
      (∀ i (h : i < ((sortLe (fun a b => decide (a.1.2 ≤ b.1.2)) reps).map
          Prod.snd).length),
        lookupKey (MaskName.num (1 + i)) d2 =
          lookupKey (MaskName.num
            (((sortLe (fun a b => decide (a.1.2 ≤ b.1.2)) reps).map
              Prod.snd).get ⟨i, h⟩)) disk) := by
  obtain ⟨reps, hbr, hkeys, hmin⟩ := buildReps_spec disk st.regions hmask
  have htot : ∀ a b : Coord × Nat,
      (fun a b : Coord × Nat => decide (a.1.2 ≤ b.1.2)) a b = true ∨
      (fun a b : Coord × Nat => decide (a.1.2 ≤ b.1.2)) b a = true := by
    intro a b
    simp only [decide_eq_true_eq]
    omega
  have htrans : ∀ a b c : Coord × Nat,
      (fun a b : Coord × Nat => decide (a.1.2 ≤ b.1.2)) a b = true →
      (fun a b : Coord × Nat => decide (a.1.2 ≤ b.1.2)) b c = true →
      (fun a b : Coord × Nat => decide (a.1.2 ≤ b.1.2)) a c = true := by
    intro a b c hab hbc
    simp only [decide_eq_true_eq] at hab hbc ⊢
    omega
  have hperm := sortLe_perm (fun a b : Coord × Nat => decide (a.1.2 ≤ b.1.2)) reps
  have holdsperm : ((sortLe (fun a b : Coord × Nat => decide (a.1.2 ≤ b.1.2)) reps).map
      Prod.snd).Perm (st.regions.map Prod.fst) := by
    rw [← hkeys]
    exact hperm.map Prod.snd
  have hndolds := (holdsperm.nodup_iff).mpr hnd
  have hsubkeys : ∀ o ∈ (sortLe (fun a b : Coord × Nat => decide (a.1.2 ≤ b.1.2)) reps).map
      Prod.snd, o ∈ st.regions.map Prod.fst := fun o ho => holdsperm.subset ho
  have hfkeys : ∀ k ∈ st.regions.map Prod.fst,
      (lookupKey (MaskName.num k) disk).isSome = true := by
    intro k hk
    have := hmask k hk
    unfold hasNonemptyMask at this
    cases hl : lookupKey (MaskName.num k) disk with
    | none => rw [hl] at this; simp at this
    | some m => simp
  obtain ⟨d1, hA, hAnum, hAold⟩ := renameToOld_spec (st.regions.map Prod.fst) disk
    hnd hfkeys
  obtain ⟨d2, hB, hBget, hBlow⟩ := renameFromOld_spec st.regions
    ((sortLe (fun a b : Coord × Nat => decide (a.1.2 ≤ b.1.2)) reps).map Prod.snd) 1 d1
    hndolds
    (fun o ho => by
      rw [hAold o, if_pos (hsubkeys o ho)]
      exact hfkeys o (hsubkeys o ho))
    (fun o ho => lookup_isSome_of_mem_keys st.regions o (hsubkeys o ho))
  refine ⟨reps, d2, hbr, hkeys, hmin, ?_, ?_, hperm, ?_⟩
  · simp only [sort_regions, if_neg (by simp : ¬(true = false)), hbr, hA, hB]
  · have := sortLe_pairwise (fun a b : Coord × Nat => decide (a.1.2 ≤ b.1.2))
      htot htrans reps
    exact this.imp fun hab => by simpa using hab
  · intro i h
    rw [hBget i h, hAold, if_pos (hsubkeys _ (List.get_mem _ i h))]

set_option maxRecDepth 4000 in
/-- Witness for C8 at the claim's y = 50 / y = 10 / y = 30 scenario: the
theorem applies, and computing the run shows the y=10 region becomes key 1,
the y=30 region key 2 and the y=50 region key 3. -/
theorem sort_regions_fast_witness :
    (∃ reps d2,
      buildReps sortDisk3 sortSt3.regions = .ok reps ∧
      reps.map Prod.snd = sortSt3.regions.map Prod.fst ∧
      (∀ pr ∈ reps, ∃ m, lookupKey (MaskName.num pr.2) sortDisk3 = some m ∧
        pr.1 ∈ maskPoints m ∧ ∀ q ∈ maskPoints m, pr.1.2 ≤ q.2) ∧
      sort_regions sortSt3 sortDisk3 true =
        .ok ({ sortSt3 with regions := enumRegions 1 ((((sortLe (fun a b => decide (a.1.2 ≤ b.1.2)) reps).map Prod.snd)).map (regOf sortSt3.regions)) }, d2, true) ∧
      List.Pairwise (fun a b : Coord × Nat => a.1.2 ≤ b.1.2)
        (sortLe (fun a b => decide (a.1.2 ≤ b.1.2)) reps) ∧
      (sortLe (fun a b => decide (a.1.2 ≤ b.1.2)) reps).Perm reps ∧
      (∀ i (h : i < ((sortLe (fun a b => decide (a.1.2 ≤ b.1.2)) reps).map
          Prod.snd).length),
        lookupKey (MaskName.num (1 + i)) d2 =
          lookupKey (MaskName.num
            (((sortLe (fun a b => decide (a.1.2 ≤ b.1.2)) reps).map
              Prod.snd).get ⟨i, h⟩)) sortDisk3)) ∧
    (match sort_regions sortSt3 sortDisk3 true with
      | .ok (st1, _, _) => some st1.regions
      | _ => none) =
      some [(1, ⟨(0, 10), 1, []⟩), (2, ⟨(0, 30), 1, []⟩), (3, ⟨(0, 50), 1, []⟩)] :=
  ⟨sort_regions_fast sortSt3 sortDisk3 (by decide) (by decide), by decide⟩

end Conquest

